import Mathlib

/-!
Verification development for the `json_data_reflector` repository: an
in-memory, size-bounded key-value layer with dotted-path access, a
size-aware eviction engine, and transparent reload on access.

The three Python source files are shallowly embedded:
- `json_data_reflector.py` (single-source reflector) in namespace
  `JsonDataReflector`;
- `json_data_reflector_multi_source.py` in namespace
  `JsonDataReflectorMultiSource`;
- `json_data_reflector_virtual.py` (object-identity variant) in namespace
  `JsonDataReflectorVirtual`.

Python dicts are embedded as insertion-ordered association lists (update
of an existing key keeps its position, a new key is appended, exactly as
CPython dicts behave); Python sets whose iteration order is never used
are embedded as duplicate-free lists with membership, insert and discard.
JSON values are the mutual inductive `Value`/`Fields` below.  `while`
loops are embedded with an explicit fuel that provably dominates the
loop's variant, so that all definitions stay structurally recursive and
kernel-reducible.
-/

/-- String constants used by the source (the eviction sentinel string
`"unloaded"`, the path separator, suffixes of the budget string, and the
error messages raised at construction time). -/
def sentinelStr : String := "unloaded"

def dotStr : String := "."

def emptyStr : String := ""

def sufMB : String := "MB"

def sufKB : String := "KB"

def sufB : String := "B"

def sizeFormatErr : String := "Unknown size format"

def identityConflictErr : String := "Object with id not found in any source."

def storeConflictErr : String := "Object id not found in managed_data_store"

def emptySourcesErr : String := "StopIteration: no sources registered"

def idKey : String := "id"

mutual
/-- A JSON-like Python value: `None`, booleans, integers, strings and
dicts with string keys.  This is the value universe the reflector code
manipulates (the code itself is generic in the values it stores). -/
inductive Value where
  | null
  | boolV (b : Bool)
  | intV (n : Int)
  | str (s : String)
  | obj (fields : Fields)

/-- The entries of a Python dict with string keys, in insertion order. -/
inductive Fields where
  | nil
  | cons (k : String) (v : Value) (rest : Fields)
end

namespace Fields

/-- `d.get(k)` on a Python dict: the value of the first (only) entry with
key `k`, if any. -/
def get? : Fields → String → Option Value
  | .nil, _ => none
  | .cons k' v t, k => if k' = k then some v else get? t k

/-- `d[k] = v` on a Python dict: replace in place (keeping the position)
if the key exists, else append a new entry. -/
def set : Fields → String → Value → Fields
  | .nil, k, v => .cons k v .nil
  | .cons k' v' t, k, v => if k' = k then .cons k v t else .cons k' v' (set t k v)

/-- `d.pop(k, None)` on a Python dict: drop the entry with key `k` when
present. -/
def erase : Fields → String → Fields
  | .nil, _ => .nil
  | .cons k' v' t, k => if k' = k then t else .cons k' v' (erase t k)

/-- `k in d` on a Python dict. -/
def hasKey : Fields → String → Bool
  | .nil, _ => false
  | .cons k' _ t, k => k' = k || hasKey t k

/-- The keys of the dict, in iteration (= insertion) order. -/
def keys : Fields → List String
  | .nil => []
  | .cons k _ t => k :: keys t

/-- Number of entries. -/
def length : Fields → Nat
  | .nil => 0
  | .cons _ _ t => length t + 1

end Fields

/-- Number of bytes `json.dumps` (with its default `ensure_ascii=True`)
spends on one character of a Python string: quotes and backslashes become
two-character escapes, the short control escapes (`\n`, `\t`, `\r`, `\b`,
`\f`) two characters, other control characters a six-character `\uXXXX`
escape, printable ASCII stays itself, other basic-plane characters become
`\uXXXX`, and astral characters a surrogate pair `\uXXXX\uXXXX`. -/
def jsonCharSize (c : Char) : Nat :=
  if c = '"' ∨ c = '\\' then 2
  else if c = '\n' ∨ c = '\t' ∨ c = '\r' ∨ c = '\x08' ∨ c = '\x0c' then 2
  else if c.toNat < 0x20 then 6
  else if c.toNat < 0x80 then 1
  else if c.toNat < 0x10000 then 6
  else 12

/-- Byte length of `json.dumps` applied to a Python string: the two
quotes plus the encoding of each character. -/
def jsonStrSize (s : String) : Nat :=
  2 + (s.data.map jsonCharSize).sum

mutual
/-- Byte length of `json.dumps(v).encode('utf-8')`, the canonical size
function the reflector uses for all eviction accounting
(`len(json.dumps(...).encode('utf-8'))` in the source). -/
def jsonSize : Value → Nat
  | .null => 4
  | .boolV true => 4
  | .boolV false => 5
  | .intV n => (toString n).length
  | .str s => jsonStrSize s
  | .obj fs => 2 + jsonEntries fs

/-- Byte length of the entries of a serialized dict: each entry is
`"key": value`, consecutive entries are joined by `", "` (the `json.dumps`
default separators). -/
def jsonEntries : Fields → Nat
  | .nil => 0
  | .cons k v .nil => jsonStrSize k + 2 + jsonSize v
  | .cons k v (.cons k2 v2 t) =>
      jsonStrSize k + 2 + jsonSize v + 2 + jsonEntries (.cons k2 v2 t)
end

/-- `value == "unloaded"` in Python: true exactly when the value is the
string equal to the eviction sentinel. -/
def isSentinel (v : Value) : Bool :=
  match v with
  | .str s => s == sentinelStr
  | _ => false

/-- `DataAccessor.get`: split the path on `.` (done by the caller here),
walk the tree, and return the default as soon as a segment is missing or
the current node is not a dict. -/
def doGetD : Value → List String → Value → Value
  | v, [], _ => v
  | .obj fs, k :: rest, d =>
      match fs.get? k with
      | some v => doGetD v rest d
      | none => d
  | _, _ :: _, d => d

/-- The dict stored under a key, or a fresh empty dict when the key is
missing or holds a non-dict (Python: `if k not in d or not
isinstance(d[k], dict): d[k] = {}`). -/
def subFields : Option Value → Fields
  | some (.obj f) => f
  | _ => .nil

/-- `DataAccessor.set`: walk all but the last segment, replacing any
non-dict intermediate node with an empty dict, then write the value at
the final segment.  Total: it never raises. -/
def doSet : Fields → List String → Value → Fields
  | m, [], _ => m
  | m, [k], v => m.set k v
  | m, k :: k2 :: rest, v =>
      m.set k (.obj (doSet (subFields (m.get? k)) (k2 :: rest) v))

/-- `key_path.split('.')` in Python, character by character (the
separator is the single character `.`).  `""` splits to `[""]`, exactly
as in Python. -/
def splitAux : List Char → List Char → List String
  | [], acc => [String.mk acc.reverse]
  | c :: t, acc =>
      if c = '.' then String.mk acc.reverse :: splitAux t []
      else splitAux t (c :: acc)

def splitDots (s : String) : List String :=
  splitAux s.data []

/-- ASCII upper-casing of one character, as Python `str.upper` acts on
the ASCII budget strings this repository uses. -/
def charUpper (c : Char) : Char :=
  if 'a' ≤ c ∧ c ≤ 'z' then Char.ofNat (c.toNat - 32) else c

/-- Python `str.strip()`: drop whitespace from both ends. -/
def stripL (l : List Char) : List Char :=
  ((l.dropWhile Char.isWhitespace).reverse.dropWhile Char.isWhitespace).reverse

/-- Digits-only numeral parser for the numeric part of the budget string.
The source applies Python `float` and truncates with `int`; every budget
in this repository (and in the spec) is an integer numeral, which is the
case embedded here. -/
def parseDigits : List Char → Option Nat
  | [] => some 0
  | c :: t =>
      if c.isDigit then
        match parseDigits t with
        | some n => some ((c.toNat - '0'.toNat) * 10 ^ t.length + n)
        | none => none
      else none

/-- Numeric part of the budget string: nonempty and all digits. -/
def parseNatL (l : List Char) : Option Nat :=
  if l.isEmpty then none else parseDigits l

/-- `_parse_size` (identical in all three source files): upper-case and
strip the configuration string, then dispatch on the `MB` / `KB` / `B`
suffix (tested in this order, as in the source), failing fast on
anything else. -/
def parseSize (sizeStr : String) : Except String Nat :=
  let l := stripL (sizeStr.data.map charUpper)
  match l.reverse with
  | 'B' :: 'M' :: rest =>
      match parseNatL rest.reverse with
      | some n => .ok (n * 1024 * 1024)
      | none => .error sizeFormatErr
  | 'B' :: 'K' :: rest =>
      match parseNatL rest.reverse with
      | some n => .ok (n * 1024)
      | none => .error sizeFormatErr
  | 'B' :: rest =>
      match parseNatL rest.reverse with
      | some n => .ok n
      | none => .error sizeFormatErr
  | _ => .error sizeFormatErr

/-- Insertion-ordered association list operations for the Python dicts
whose values are not `Value`s (the Size Table `key_sizes : {str: int}`
and the Source Registry `{str: DataSource}`).  `dSet` keeps the position
of an existing key and appends a new one, as CPython does. -/
def dGet? {α : Type} : List (String × α) → String → Option α
  | [], _ => none
  | (k', v) :: t, k => if k' = k then some v else dGet? t k

def dSet {α : Type} : List (String × α) → String → α → List (String × α)
  | [], k, v => [(k, v)]
  | (k', v') :: t, k, v =>
      if k' = k then (k, v) :: t else (k', v') :: dSet t k v

def dErase {α : Type} : List (String × α) → String → List (String × α)
  | [], _ => []
  | (k', v') :: t, k => if k' = k then t else (k', v') :: dErase t k

def dHasKey {α : Type} (l : List (String × α)) (k : String) : Bool :=
  l.any (fun e => e.1 == k)

def dKeys {α : Type} (l : List (String × α)) : List String :=
  l.map Prod.fst

/-- `s.add(k)` on a Python set embedded as a duplicate-free list. -/
def insertU (k : String) (u : List String) : List String :=
  if k ∈ u then u else k :: u

/-- Python's `max(candidates, key=f)`: fold from the left, replacing the
current best only on a strictly greater key, so the first element
attaining the maximum wins ties. -/
def pyMax (f : String → Nat) : String → List String → String
  | c, [] => c
  | c, x :: t => if f x > f c then pyMax f x t else pyMax f c t

namespace JsonDataReflector

/-- State of a `JsonDataReflector` from `json_data_reflector.py`.  The
`DataLoader` and `DataSaver` collaborators are constructed over
`self.managed_data` itself, so their reads and writes act on this same
dict; the per-instance lock serializes operations, which the functional
embedding renders as plain sequential state passing. -/
structure RState where
  managed_data : Fields
  unloaded_keys : List String
  key_sizes : List (String × Nat)
  max_memory_size : Nat
  large_key_threshold : Nat

/-- `__init__`: parse the budget (failing fast on a malformed string),
start with an empty Unloaded Set and Size Table, and fix the large-key
threshold at a tenth of the budget (integer division, as `//` does). -/
def mkReflector (managed : Fields) (sizeStr : String) : Except String RState :=
  match parseSize sizeStr with
  | .error e => .error e
  | .ok m =>
      .ok { managed_data := managed
            unloaded_keys := []
            key_sizes := []
            max_memory_size := m
            large_key_threshold := m / 10 }

/-- `{k: self.managed_data[k] for k in small_keys}`: the sub-dict of the
small keys, in their iteration order. -/
def selectFields (md : Fields) : List String → Fields
  | [] => .nil
  | k :: t => .cons k ((md.get? k).getD .null) (selectFields md t)

/-- `_current_memory_size`: the tracked sizes of the large keys plus, if
any key is neither tracked nor unloaded, the serialized size of the dict
of those small keys. -/
def current_memory_size (s : RState) : Nat :=
  let total := (s.key_sizes.map Prod.snd).sum
  let smallKeys :=
    s.managed_data.keys.filter
      (fun k => !dHasKey s.key_sizes k && !s.unloaded_keys.contains k)
  match smallKeys with
  | [] => total
  | _ :: _ => total + jsonSize (.obj (selectFields s.managed_data smallKeys))

/-- The large-key candidates of one eviction iteration: the Size Table
keys not already unloaded, in Size Table iteration order. -/
def candidatesOf (s : RState) : List String :=
  (dKeys s.key_sizes).filter (fun k => !s.unloaded_keys.contains k)

/-- The key one iteration of `_unload_if_needed` chooses: the first
maximum of the large-key candidates, or — when there is no large-key
candidate — the first managed key not already unloaded (`None` when
neither phase yields a key). -/
def pickCandidate (s : RState) : Option String :=
  match candidatesOf s with
  | c :: cs => some (pyMax (fun k => (dGet? s.key_sizes k).getD 0) c cs)
  | [] => s.managed_data.keys.find? (fun k => !s.unloaded_keys.contains k)

/-- The eviction action on a chosen key: overwrite its value with the
sentinel, add it to the Unloaded Set, drop its Size Table entry. -/
def evictOne (s : RState) (k : String) : RState :=
  { s with managed_data := s.managed_data.set k (.str sentinelStr)
           unloaded_keys := insertU k s.unloaded_keys
           key_sizes := dErase s.key_sizes k }

/-- The `while` loop of `_unload_if_needed`, with explicit fuel: repeat
while over budget and a candidate exists.  `unload_if_needed` below runs
it with fuel that provably dominates the loop variant, so the fuel case
is never the reason the loop stops. -/
def unloadLoop : Nat → RState → RState
  | 0, s => s
  | n + 1, s =>
      if current_memory_size s > s.max_memory_size then
        match pickCandidate s with
        | some k => unloadLoop n (evictOne s k)
        | none => s
      else s

/-- `_unload_if_needed`. -/
def unload_if_needed (s : RState) : RState :=
  unloadLoop (s.key_sizes.length + s.managed_data.length + 1) s

/-- `get`: read through the Path Accessor; if the value read equals the
sentinel, reload the root key through the `DataLoader` (which, being
constructed over `managed_data` itself, returns whatever that same dict
currently holds under the key, or `None` when absent), clear the key
from the Unloaded Set, redo the size classification and re-read. -/
def get (s : RState) (keyPath : String) (default : Value) : Value × RState :=
  let segs := splitDots keyPath
  let value := doGetD (.obj s.managed_data) segs default
  if isSentinel value then
    let key := segs.headD emptyStr
    let loadedVal := (s.managed_data.get? key).getD .null
    let md2 := s.managed_data.set key loadedVal
    let u2 := s.unloaded_keys.erase key
    let size := jsonSize ((md2.get? key).getD .null)
    let ks2 :=
      if size > s.large_key_threshold then dSet s.key_sizes key size
      else dErase s.key_sizes key
    let s2 := { s with managed_data := md2, unloaded_keys := u2, key_sizes := ks2 }
    (doGetD (.obj md2) segs default, s2)
  else (value, s)

/-- `set`: write through the Path Accessor (a dotted sub-path
read-modifies the existing top-level value), reclassify the root key's
size, run the eviction engine, then persist the single-key batch
`{key: self.managed_data[key]}` — evaluated after the eviction pass —
through the `DataSaver` (which writes into `managed_data` itself).  The
batch handed to the saver is returned alongside the new state. -/
def set (s : RState) (keyPath : String) (v : Value) :
    RState × List (String × Value) :=
  let segs := splitDots keyPath
  let md1 := doSet s.managed_data segs v
  let key := segs.headD emptyStr
  let size := jsonSize ((md1.get? key).getD .null)
  let ks1 :=
    if size > s.large_key_threshold then dSet s.key_sizes key size
    else dErase s.key_sizes key
  let s2 := unload_if_needed { s with managed_data := md1, key_sizes := ks1 }
  let batch : List (String × Value) := [(key, (s2.managed_data.get? key).getD .null)]
  let md3 := batch.foldl (fun m e => m.set e.1 e.2) s2.managed_data
  ({ s2 with managed_data := md3 }, batch)

/-- The terminal condition of the eviction engine: within budget, or no
candidate remains in either phase. -/
def evictionDone (s : RState) : Prop :=
  current_memory_size s ≤ s.max_memory_size ∨ pickCandidate s = none

end JsonDataReflector

namespace JsonDataReflectorMultiSource

/-- A `DataSource` from `json_data_reflector_multi_source.py`: a named
container with a bookkeeping key set and a dict of realized values. -/
structure DataSource where
  source_id : String
  keys : List String
  data : Fields

/-- `DataSource.set`: realize the value and add the key to the
bookkeeping set. -/
def sourceSet (src : DataSource) (k : String) (v : Value) : DataSource :=
  { src with data := src.data.set k v, keys := insertU k src.keys }

/-- State of a `JsonDataReflectorMultiSource`.  The Source Registry is
the insertion-ordered dict `sources`; `accessor_data` is the tree the
`DataAccessor` currently wraps: the managed object's own tree right
after construction, and a snapshot of the combined view after every
`set` (the source rebinds `self.accessor` only at the end of `set`). -/
structure MSState where
  sources : List (String × DataSource)
  unloaded_keys : List String
  key_sizes : List (String × Nat)
  max_memory_size : Nat
  large_key_threshold : Nat
  accessor_data : Value
  object_id : String
  source_id : String

/-- `_build_combined_data`: start from an empty dict and `update` it
with each source's data in registry order, so a later source wins on a
key collision while the colliding key keeps its first position. -/
def combined (sources : List (String × DataSource)) : Fields :=
  sources.foldl (fun acc e => updateAll acc e.2.data) .nil
where
  updateAll (acc : Fields) : Fields → Fields
    | .nil => acc
    | .cons k v t => updateAll (acc.set k v) t

/-- `k in source.data` for the stated object identifier, which matches a
(string-keyed) source dict only when it is itself a string. -/
def memAsKey (idv : Value) (d : Fields) : Bool :=
  match idv with
  | .str i => d.hasKey i
  | _ => false

/-- `__init__`: parse the budget; then, if the managed data states an
`id`, locate the owning source (first match in registry order) or fail
with the identity-conflict `ValueError`; otherwise stamp a freshly
generated id (the `uuid.uuid4()` draw is passed in as `freshId`),
choose the default source — `default_source_id` if truthy and
registered, else the first registered source (`next(iter(...))`, which
raises on an empty registry) — and register the managed object there. -/
def init (managed : Fields) (sources : List (String × DataSource))
    (sizeStr : String) (defaultSourceId : Option String) (freshId : String) :
    Except String MSState :=
  match parseSize sizeStr with
  | .error e => .error e
  | .ok m =>
      match managed.get? idKey with
      | some idv =>
          match sources.find? (fun e => memAsKey idv e.2.data) with
          | some e =>
              match idv with
              | .str i =>
                  .ok { sources := sources
                        unloaded_keys := []
                        key_sizes := []
                        max_memory_size := m
                        large_key_threshold := m / 10
                        accessor_data := (e.2.data.get? i).getD .null
                        object_id := i
                        source_id := e.1 }
              | _ => .error identityConflictErr
          | none => .error identityConflictErr
      | none =>
          let managed2 := managed.set idKey (.str freshId)
          let chosen : Option String :=
            match defaultSourceId with
            | some d => if d ≠ emptyStr && dHasKey sources d then some d
                        else (sources.head?).map Prod.fst
            | none => (sources.head?).map Prod.fst
          match chosen with
          | none => .error emptySourcesErr
          | some sid =>
              let sources2 :=
                sources.map (fun e =>
                  if e.1 = sid then
                    (e.1, { e.2 with data := e.2.data.set freshId (.obj managed2) })
                  else e)
              .ok { sources := sources2
                    unloaded_keys := []
                    key_sizes := []
                    max_memory_size := m
                    large_key_threshold := m / 10
                    accessor_data := .obj managed2
                    object_id := freshId
                    source_id := sid }

/-- `_current_memory_size` over the combined view. -/
def current_memory_size (s : MSState) : Nat :=
  let total := (s.key_sizes.map Prod.snd).sum
  let comb := combined s.sources
  let smallKeys :=
    comb.keys.filter
      (fun k => !dHasKey s.key_sizes k && !s.unloaded_keys.contains k)
  match smallKeys with
  | [] => total
  | _ :: _ => total + jsonSize (.obj (selectF comb smallKeys))
where
  selectF (md : Fields) : List String → Fields
    | [] => .nil
    | k :: t => .cons k ((md.get? k).getD .null) (selectF md t)

/-- Large-key candidates, as in the single-source engine. -/
def candidatesOf (s : MSState) : List String :=
  (dKeys s.key_sizes).filter (fun k => !s.unloaded_keys.contains k)

/-- One iteration's choice of eviction victim: first maximum of the
large-key candidates, else the first combined-view key not already
unloaded. -/
def pickCandidate (s : MSState) : Option String :=
  match candidatesOf s with
  | c :: cs => some (pyMax (fun k => (dGet? s.key_sizes k).getD 0) c cs)
  | [] => (combined s.sources).keys.find? (fun k => !s.unloaded_keys.contains k)

/-- Write a value for key `k` into the first source (in registry order)
whose data contains `k`, as the `for source in self.sources.values():
if k in source.data: ...; break` loop does; no source owning `k` leaves
the registry unchanged. -/
def writeFirstOwner : List (String × DataSource) → String → Value →
    List (String × DataSource)
  | [], _, _ => []
  | e :: t, k, v =>
      if e.2.data.hasKey k then
        (e.1, { e.2 with data := e.2.data.set k v }) :: t
      else e :: writeFirstOwner t k v

/-- Whether some source's data contains the key. -/
def ownedSomewhere (sources : List (String × DataSource)) (k : String) : Bool :=
  sources.any (fun e => e.2.data.hasKey k)

/-- The eviction action: when some source owns the chosen key, replace
its value there with the sentinel, add the key to the Unloaded Set and
drop its Size Table entry; when no source owns it, the iteration
changes nothing (the source's `for`/`break` finds no match). -/
def evictOne (s : MSState) (k : String) : MSState :=
  if ownedSomewhere s.sources k then
    { s with sources := writeFirstOwner s.sources k (.str sentinelStr)
             unloaded_keys := insertU k s.unloaded_keys
             key_sizes := dErase s.key_sizes k }
  else s

/-- The `while` loop of `_unload_if_needed`, fuel-indexed as in the
single-source engine. -/
def unloadLoop : Nat → MSState → MSState
  | 0, s => s
  | n + 1, s =>
      if current_memory_size s > s.max_memory_size then
        match pickCandidate s with
        | some k => unloadLoop n (evictOne s k)
        | none => s
      else s

/-- `_unload_if_needed`. -/
def unload_if_needed (s : MSState) : MSState :=
  unloadLoop (s.key_sizes.length + (combined s.sources).length + 1) s

/-- `get`: read through the accessor snapshot; on the sentinel, find the
first source whose data holds the root key, "reload" it through the
`DataLoader` (which reads that same registry, so it returns the value
currently stored there), clear the Unloaded-Set entry, reclassify the
size, and re-read — against the unchanged accessor snapshot. -/
def get (s : MSState) (keyPath : String) (default : Value) : Value × MSState :=
  let segs := splitDots keyPath
  let value := doGetD s.accessor_data segs default
  if isSentinel value then
    let key := segs.headD emptyStr
    match s.sources.find? (fun e => e.2.data.hasKey key) with
    | some e =>
        let loadedVal := (e.2.data.get? key).getD .null
        let sources2 := writeFirstOwner s.sources key loadedVal
        let u2 := s.unloaded_keys.erase key
        let size := jsonSize loadedVal
        let ks2 :=
          if size > s.large_key_threshold then dSet s.key_sizes key size
          else dErase s.key_sizes key
        let s2 := { s with sources := sources2, unloaded_keys := u2, key_sizes := ks2 }
        (doGetD s.accessor_data segs default, s2)
    | none => (doGetD s.accessor_data segs default, s)
  else (value, s)

/-- The routing rule of `set`: the explicitly named source when the
argument is truthy and registered; else the first source (in registry
order) whose data already holds the key; else the first registered
source; `none` only when the registry is empty, where the source raises
`StopIteration`. -/
def routeFor (sources : List (String × DataSource)) (key : String)
    (sourceId : Option String) : Option (String × DataSource) :=
  match sourceId with
  | some sid =>
      if sid ≠ emptyStr && dHasKey sources sid then
        (dGet? sources sid).map (fun src => (sid, src))
      else
        match sources.find? (fun e => e.2.data.hasKey key) with
        | some e => some e
        | none => sources.head?
  | none =>
      match sources.find? (fun e => e.2.data.hasKey key) with
      | some e => some e
      | none => sources.head?

/-- Update the entry of the registry dict with the given registry key. -/
def updateAt (sources : List (String × DataSource)) (sid : String)
    (f : DataSource → DataSource) : List (String × DataSource) :=
  sources.map (fun e => if e.1 = sid then (e.1, f e.2) else e)

/-- `set`: resolve the root key (a dotted remainder is dropped: the
source writes the caller's value at the top-level key), route to the
target source and write there, classify `len(json.dumps(value))`, run
the eviction engine, persist the single-key batch through the
`DataSaver` — which looks the target up again by its `source_id` field
and is a no-op when that name is not registered — and finally rebuild
the accessor over the combined view.  `none` models the `StopIteration`
escape on an empty registry. -/
def set (s : MSState) (keyPath : String) (v : Value) (sourceId : Option String) :
    Option MSState :=
  let segs := splitDots keyPath
  let key := segs.headD emptyStr
  match routeFor s.sources key sourceId with
  | none => none
  | some target =>
      let sources1 := updateAt s.sources target.1 (fun src => sourceSet src key v)
      let size := jsonSize v
      let ks1 :=
        if size > s.large_key_threshold then dSet s.key_sizes key size
        else dErase s.key_sizes key
      let s2 := unload_if_needed { s with sources := sources1, key_sizes := ks1 }
      let s3 :=
        if dHasKey s2.sources target.2.source_id then
          { s2 with sources := updateAt s2.sources target.2.source_id
                      (fun src => sourceSet src key v) }
        else s2
      some { s3 with accessor_data := .obj (combined s3.sources) }

/-- The terminal condition of the multi-source eviction engine. -/
def evictionDone (s : MSState) : Prop :=
  current_memory_size s ≤ s.max_memory_size ∨ pickCandidate s = none

end JsonDataReflectorMultiSource

namespace JsonDataReflectorVirtual

/-- Modelled from the spec: the `managed_data_store` collaborator of
`json_data_reflector_virtual.py` is an external persistence mechanism
("the object must be registered before a Reflector can attach to it");
only its `exists(id)` / `save_object(id, obj)` contract is used by the
constructor, so it is embedded as a dict of registered objects keyed by
their (string) identifiers. -/
def StoreT : Type := Fields

/-- `exists(id)`: a stated identifier is found only when it is a string
registered in the store. -/
def storeExists (store : StoreT) (idv : Value) : Bool :=
  match idv with
  | .str i => Fields.hasKey store i
  | _ => false

/-- `save_object(id, obj)`. -/
def storeSave (store : StoreT) (i : String) (obj : Value) : StoreT :=
  Fields.set store i obj

/-- Constructor result of the object-identity `JsonDataReflector` of
`json_data_reflector_virtual.py`: the managed tree, the store and the
attached identifier. -/
structure VState where
  managed_data : Fields
  store : StoreT
  max_memory_size : Nat
  managed_data_id : Value

/-- `__init__`: parse the budget; when the managed data has no `id`,
stamp the freshly generated one (the `uuid.uuid4()` draw is `freshId`)
and register the object in the store; when it states an `id`, require
the store to know it, failing with the identity-conflict `ValueError`
otherwise. -/
def init (managed : Fields) (store : StoreT) (sizeStr : String)
    (freshId : String) : Except String VState :=
  match parseSize sizeStr with
  | .error e => .error e
  | .ok m =>
      match managed.get? idKey with
      | none =>
          let managed2 := managed.set idKey (.str freshId)
          .ok { managed_data := managed2
                store := storeSave store freshId (.obj managed2)
                max_memory_size := m
                managed_data_id := .str freshId }
      | some idv =>
          if storeExists store idv then
            .ok { managed_data := managed
                  store := store
                  max_memory_size := m
                  managed_data_id := idv }
          else .error storeConflictErr

end JsonDataReflectorVirtual

/-! ### Generic lemmas about the embedded dict and set operations -/

/-- Structural induction for `Fields` alone (the mutual recursor has two
motives; the dict operations only recurse within `Fields`). -/
@[induction_eliminator]
theorem Fields.inductionOn {P : Fields → Prop} (m : Fields) (nil : P .nil)
    (cons : ∀ k v t, P t → P (.cons k v t)) : P m :=
  match m with
  | .nil => nil
  | .cons k v t => cons k v t (Fields.inductionOn t nil cons)

theorem Fields.get?_set_self (m : Fields) (k : String) (v : Value) :
    (m.set k v).get? k = some v := by
  induction m with
  | nil => simp [Fields.set, Fields.get?]
  | cons k' v' t ih =>
      by_cases h : k' = k
      · simp [Fields.set, Fields.get?, h]
      · simp [Fields.set, Fields.get?, h, ih]

theorem Fields.get?_set_ne (m : Fields) (k k' : String) (v : Value)
    (h : k' ≠ k) : (m.set k v).get? k' = m.get? k' := by
  have hkk : ¬k = k' := fun hh => h hh.symm
  induction m with
  | nil => simp [Fields.set, Fields.get?, hkk]
  | cons k2 v2 t ih =>
      by_cases h2 : k2 = k
      · subst h2
        simp [Fields.set, Fields.get?, hkk]
      · simp only [Fields.set, if_neg h2, Fields.get?, ih]

theorem Fields.set_get?_self (m : Fields) (k : String) (v : Value)
    (h : m.get? k = some v) : m.set k v = m := by
  induction m with
  | nil => simp [Fields.get?] at h
  | cons k' v' t ih =>
      by_cases h2 : k' = k
      · subst h2
        simp [Fields.get?] at h
        simp [Fields.set, h]
      · simp [Fields.get?, h2] at h
        simp [Fields.set, h2, ih h]

theorem Fields.mem_keys_set (m : Fields) (k x : String) (v : Value)
    (h : x ∈ (m.set k v).keys) : x ∈ m.keys ∨ x = k := by
  induction m with
  | nil =>
      simp only [Fields.set, Fields.keys, List.mem_cons, List.not_mem_nil,
        or_false] at h
      exact Or.inr h
  | cons k' v' t ih =>
      by_cases h2 : k' = k
      · subst h2
        simp only [Fields.set, if_pos rfl, Fields.keys, List.mem_cons] at h ⊢
        tauto
      · simp only [Fields.set, if_neg h2, Fields.keys, List.mem_cons] at h ⊢
        rcases h with h | h
        · exact Or.inl (Or.inl h)
        · rcases ih h with h3 | h3
          · exact Or.inl (Or.inr h3)
          · exact Or.inr h3

theorem Fields.self_mem_keys_set (m : Fields) (k : String) (v : Value) :
    k ∈ (m.set k v).keys := by
  induction m with
  | nil => simp [Fields.set, Fields.keys]
  | cons k' v' t ih =>
      by_cases h2 : k' = k
      · simp [Fields.set, h2, Fields.keys]
      · simp [Fields.set, h2, Fields.keys, ih]

theorem Fields.keys_mono_set (m : Fields) (k x : String) (v : Value)
    (h : x ∈ m.keys) : x ∈ (m.set k v).keys := by
  induction m with
  | nil => simp [Fields.keys] at h
  | cons k' v' t ih =>
      by_cases h2 : k' = k
      · subst h2
        simp only [Fields.keys, List.mem_cons] at h
        rcases h with h | h
        · simp [Fields.set, Fields.keys, h]
        · simp [Fields.set, Fields.keys, Or.inr h]
      · simp only [Fields.keys, List.mem_cons] at h
        rcases h with h | h
        · simp [Fields.set, h2, Fields.keys, h]
        · simp [Fields.set, h2, Fields.keys, Or.inr (ih h)]

theorem Fields.hasKey_iff (m : Fields) (k : String) :
    m.hasKey k = true ↔ k ∈ m.keys := by
  induction m with
  | nil => simp [Fields.hasKey, Fields.keys]
  | cons k' v' t ih =>
      by_cases h : k' = k
      · simp [Fields.hasKey, Fields.keys, h]
      · have h' : ¬k = k' := fun hh => h hh.symm
        simp [Fields.hasKey, Fields.keys, h, h', ih]

theorem dGet?_set_self {α : Type} (l : List (String × α)) (k : String) (v : α) :
    dGet? (dSet l k v) k = some v := by
  induction l with
  | nil => simp [dSet, dGet?]
  | cons e t ih =>
      by_cases h : e.1 = k
      · simp [dSet, dGet?, h]
      · simp [dSet, dGet?, h, ih]

theorem dErase_sublist {α : Type} (l : List (String × α)) (k : String) :
    List.Sublist (dErase l k) l := by
  induction l with
  | nil => simp [dErase]
  | cons e t ih =>
      by_cases h : e.1 = k
      · simp only [dErase, if_pos h]
        exact List.sublist_cons_self e t
      · simp only [dErase, if_neg h]
        exact List.Sublist.cons₂ e ih

theorem mem_dKeys_erase {α : Type} (l : List (String × α)) (k x : String)
    (h : x ∈ dKeys (dErase l k)) : x ∈ dKeys l :=
  ((dErase_sublist l k).map Prod.fst).subset h

theorem mem_dKeys_set {α : Type} (l : List (String × α)) (k x : String) (v : α)
    (h : x ∈ dKeys (dSet l k v)) : x ∈ dKeys l ∨ x = k := by
  induction l with
  | nil =>
      simp only [dSet, dKeys, List.map_cons, List.map_nil, List.mem_cons,
        List.not_mem_nil, or_false] at h
      exact Or.inr h
  | cons e t ih =>
      by_cases h2 : e.1 = k
      · simp only [dSet, if_pos h2, dKeys, List.map_cons, List.mem_cons] at h ⊢
        rcases h with h | h
        · exact Or.inr h
        · exact Or.inl (Or.inr h)
      · simp only [dSet, if_neg h2, dKeys, List.map_cons, List.mem_cons] at h ⊢
        rcases h with h | h
        · exact Or.inl (Or.inl h)
        · rcases ih h with h3 | h3
          · exact Or.inl (Or.inr h3)
          · exact Or.inr h3

theorem mem_insertU (k x : String) (u : List String) :
    x ∈ insertU k u ↔ x = k ∨ x ∈ u := by
  by_cases h : k ∈ u
  · simp only [insertU, if_pos h]
    constructor
    · exact fun hx => Or.inr hx
    · rintro (rfl | hx)
      · exact h
      · exact hx
  · simp [insertU, if_neg h]

theorem pyMax_mem (f : String → Nat) (c : String) (cs : List String) :
    pyMax f c cs ∈ c :: cs := by
  induction cs generalizing c with
  | nil => simp [pyMax]
  | cons x t ih =>
      by_cases h : f x > f c
      · simp only [pyMax, if_pos h]
        have := ih x
        simp only [List.mem_cons] at this ⊢
        tauto
      · simp only [pyMax, if_neg h]
        have := ih c
        simp only [List.mem_cons] at this ⊢
        tauto

theorem pyMax_le (f : String → Nat) (c : String) (cs : List String) :
    ∀ x ∈ c :: cs, f x ≤ f (pyMax f c cs) := by
  induction cs generalizing c with
  | nil =>
      intro x hx
      simp only [List.mem_cons, List.not_mem_nil, or_false] at hx
      simp [pyMax, hx]
  | cons y t ih =>
      intro x hx
      have hhead : ∀ z : String, f z ≤ f (pyMax f z t) := fun z => ih z z (by simp)
      by_cases h : f y > f c
      · simp only [pyMax, if_pos h]
        rcases List.mem_cons.mp hx with h1 | h1
        · exact h1 ▸ le_trans (le_of_lt h) (hhead y)
        · rcases List.mem_cons.mp h1 with h2 | h2
          · exact h2 ▸ hhead y
          · exact ih y x (List.mem_cons.mpr (Or.inr h2))
      · simp only [pyMax, if_neg h]
        rcases List.mem_cons.mp hx with h1 | h1
        · exact h1 ▸ hhead c
        · rcases List.mem_cons.mp h1 with h2 | h2
          · exact h2 ▸ le_trans (le_of_not_lt h) (hhead c)
          · exact ih c x (List.mem_cons.mpr (Or.inr h2))

/-! ### The single-source eviction engine: termination and invariants -/

theorem Fields.length_keys (m : Fields) : m.keys.length = m.length := by
  induction m with
  | nil => simp [Fields.keys, Fields.length]
  | cons k v t ih => simp [Fields.keys, Fields.length, ih]

namespace JsonDataReflector

/-- Every key one eviction iteration can touch: Size Table keys followed
by managed keys. -/
def allKeys (s : RState) : List String :=
  dKeys s.key_sizes ++ s.managed_data.keys

/-- The loop variant: how many touchable keys are not yet unloaded. -/
def liveCard (s : RState) : Nat :=
  ((allKeys s).toFinset \ s.unloaded_keys.toFinset).card

theorem pick_spec (s : RState) (k : String)
    (h : pickCandidate s = some k) : k ∈ allKeys s ∧ k ∉ s.unloaded_keys := by
  unfold pickCandidate at h
  cases hc : candidatesOf s with
  | cons c cs =>
      rw [hc] at h
      have hEq : pyMax (fun k => (dGet? s.key_sizes k).getD 0) c cs = k := by
        simpa using h
      have hmem : k ∈ candidatesOf s := by
        rw [hc, ← hEq]
        exact pyMax_mem _ c cs
      unfold candidatesOf at hmem
      obtain ⟨hmem1, hmem2⟩ := List.mem_filter.mp hmem
      refine ⟨List.mem_append.mpr (Or.inl hmem1), fun hk => ?_⟩
      rw [Bool.not_eq_true'] at hmem2
      have h3 : s.unloaded_keys.contains k = true := List.elem_eq_true_of_mem hk
      rw [h3] at hmem2
      exact Bool.noConfusion hmem2
  | nil =>
      rw [hc] at h
      have h' : List.find? (fun k => !s.unloaded_keys.contains k)
          s.managed_data.keys = some k := by
        simpa using h
      have h1 := List.mem_of_find?_eq_some h'
      have h2 := List.find?_some h'
      refine ⟨List.mem_append.mpr (Or.inr h1), fun hk => ?_⟩
      rw [Bool.not_eq_true'] at h2
      have h3 : s.unloaded_keys.contains k = true := List.elem_eq_true_of_mem hk
      rw [h3] at h2
      exact Bool.noConfusion h2

theorem mem_allKeys_evict (s : RState) (k x : String)
    (h : x ∈ allKeys (evictOne s k)) : x ∈ allKeys s ∨ x = k := by
  unfold allKeys evictOne at h
  rcases List.mem_append.mp h with h1 | h1
  · exact Or.inl (List.mem_append.mpr (Or.inl (mem_dKeys_erase _ _ _ h1)))
  · rcases Fields.mem_keys_set _ _ _ _ h1 with h2 | h2
    · exact Or.inl (List.mem_append.mpr (Or.inr h2))
    · exact Or.inr h2

theorem liveCard_evict_lt (s : RState) (k : String)
    (h : pickCandidate s = some k) : liveCard (evictOne s k) < liveCard s := by
  obtain ⟨hmem, hnot⟩ := pick_spec s k h
  apply Finset.card_lt_card
  have hsub : (allKeys (evictOne s k)).toFinset \ (evictOne s k).unloaded_keys.toFinset ⊆
      (allKeys s).toFinset \ s.unloaded_keys.toFinset := by
    intro x hx
    rcases Finset.mem_sdiff.mp hx with ⟨hx1, hx2⟩
    have hx1' := List.mem_toFinset.mp hx1
    have hx2' : x ∉ (evictOne s k).unloaded_keys := fun hh => hx2 (List.mem_toFinset.mpr hh)
    have hxu : x ∉ insertU k s.unloaded_keys := hx2'
    have hxk : x ≠ k := fun hh => hxu ((mem_insertU _ _ _).mpr (Or.inl hh))
    have hxu2 : x ∉ s.unloaded_keys := fun hh => hxu ((mem_insertU _ _ _).mpr (Or.inr hh))
    rcases mem_allKeys_evict s k x hx1' with h1 | h1
    · exact Finset.mem_sdiff.mpr ⟨List.mem_toFinset.mpr h1,
        fun hh => hxu2 (List.mem_toFinset.mp hh)⟩
    · exact absurd h1 hxk
  refine (Finset.ssubset_iff_of_subset hsub).mpr ⟨k, ?_, ?_⟩
  · exact Finset.mem_sdiff.mpr ⟨List.mem_toFinset.mpr hmem,
      fun hh => hnot (List.mem_toFinset.mp hh)⟩
  · intro hk
    have := (Finset.mem_sdiff.mp hk).2
    exact this (List.mem_toFinset.mpr ((mem_insertU _ _ _).mpr (Or.inl rfl)))

theorem unloadLoop_done : ∀ (n : Nat) (s : RState), liveCard s < n →
    evictionDone (unloadLoop n s)
  | 0, _, h => absurd h (by omega)
  | n + 1, s, h => by
      by_cases hover : current_memory_size s > s.max_memory_size
      · cases hp : pickCandidate s with
        | none =>
            simp only [unloadLoop, if_pos hover, hp]
            exact Or.inr hp
        | some k =>
            simp only [unloadLoop, if_pos hover, hp]
            exact unloadLoop_done n (evictOne s k)
              (by have := liveCard_evict_lt s k hp; omega)
      · simp only [unloadLoop, if_neg hover]
        exact Or.inl (le_of_not_lt hover)

theorem liveCard_lt_fuel (s : RState) :
    liveCard s < s.key_sizes.length + s.managed_data.length + 1 := by
  have h1 : liveCard s ≤ (allKeys s).toFinset.card :=
    Finset.card_le_card (Finset.sdiff_subset)
  have h2 : (allKeys s).toFinset.card ≤ (allKeys s).length := List.toFinset_card_le _
  have h3 : (allKeys s).length = s.key_sizes.length + s.managed_data.length := by
    unfold allKeys
    rw [List.length_append, Fields.length_keys]
    simp [dKeys]
  omega

theorem unload_if_needed_done (s : RState) : evictionDone (unload_if_needed s) :=
  unloadLoop_done _ s (liveCard_lt_fuel s)

theorem unload_if_needed_noop (s : RState) (hp : pickCandidate s = none) :
    unload_if_needed s = s := by
  unfold unload_if_needed
  by_cases hover : current_memory_size s > s.max_memory_size
  · simp [unloadLoop, hover, hp]
  · simp [unloadLoop, hover]

theorem unloadLoop_keys_mono : ∀ (n : Nat) (s : RState) (x : String),
    x ∈ s.managed_data.keys → x ∈ (unloadLoop n s).managed_data.keys
  | 0, _, _, h => h
  | n + 1, s, x, h => by
      by_cases hover : current_memory_size s > s.max_memory_size
      · cases hp : pickCandidate s with
        | none => simpa only [unloadLoop, if_pos hover, hp] using h
        | some k =>
            simp only [unloadLoop, if_pos hover, hp]
            exact unloadLoop_keys_mono n (evictOne s k) x
              (Fields.keys_mono_set _ _ _ _ h)
      · simpa only [unloadLoop, if_neg hover] using h

theorem unloadLoop_sentinel_inv : ∀ (n : Nat) (s : RState) (u0 : List String),
    (∀ k, k ∈ s.unloaded_keys →
      k ∈ u0 ∨ s.managed_data.get? k = some (.str sentinelStr)) →
    ∀ k, k ∈ (unloadLoop n s).unloaded_keys →
      k ∈ u0 ∨ (unloadLoop n s).managed_data.get? k = some (.str sentinelStr)
  | 0, _, _, hinv, k, hk => hinv k hk
  | n + 1, s, u0, hinv, k, hk => by
      by_cases hover : current_memory_size s > s.max_memory_size
      · cases hp : pickCandidate s with
        | none =>
            simp only [unloadLoop, if_pos hover, hp] at hk ⊢
            exact hinv k hk
        | some k0 =>
            simp only [unloadLoop, if_pos hover, hp] at hk ⊢
            refine unloadLoop_sentinel_inv n (evictOne s k0) u0 ?_ k hk
            intro k' hk'
            have hk0not := (pick_spec s k0 hp).2
            rcases (mem_insertU _ _ _).mp hk' with rfl | hmem
            · exact Or.inr (Fields.get?_set_self _ _ _)
            · rcases hinv k' hmem with h1 | h1
              · exact Or.inl h1
              · have hne : k' ≠ k0 := fun hh => hk0not (hh ▸ hmem)
                exact Or.inr ((Fields.get?_set_ne _ _ _ _ hne).trans h1)
      · simp only [unloadLoop, if_neg hover] at hk ⊢
        exact hinv k hk

end JsonDataReflector

/-! ### Additional `Fields` lemmas for the multi-source engine -/

theorem Fields.keys_set_of_mem (m : Fields) (k : String) (v : Value)
    (h : k ∈ m.keys) : (m.set k v).keys = m.keys := by
  induction m with
  | nil => simp [Fields.keys] at h
  | cons k' v' t ih =>
      by_cases h2 : k' = k
      · simp [Fields.set, h2, Fields.keys]
      · simp only [Fields.keys, List.mem_cons] at h
        rcases h with h | h
        · exact absurd h.symm h2
        · simp [Fields.set, h2, Fields.keys, ih h]

theorem Fields.hasKey_mono_set (m : Fields) (k k' : String) (v : Value)
    (h : m.hasKey k' = true) : (m.set k v).hasKey k' = true := by
  rw [Fields.hasKey_iff] at h ⊢
  exact Fields.keys_mono_set m k k' v h

theorem Fields.eq_nil_of_keys_eq_nil (m : Fields) (h : m.keys = []) : m = .nil := by
  cases m with
  | nil => rfl
  | cons k v t => simp [Fields.keys] at h

theorem Fields.get?_none_of_not_mem (m : Fields) (k : String)
    (hmem : k ∉ m.keys) : m.get? k = none := by
  induction m with
  | nil => simp [Fields.get?]
  | cons k3 v3 t3 ih =>
      simp only [Fields.keys, List.mem_cons, not_or] at hmem
      have : ¬k3 = k := fun hh => hmem.1 hh.symm
      simp only [Fields.get?, if_neg this]
      exact ih hmem.2

namespace JsonDataReflectorMultiSource

/-- Every key one eviction iteration can touch. -/
def allKeys (s : MSState) : List String :=
  dKeys s.key_sizes ++ (combined s.sources).keys

/-- The loop variant. -/
def liveCard (s : MSState) : Nat :=
  ((allKeys s).toFinset \ s.unloaded_keys.toFinset).card

/-- Well-formedness the public API maintains: every Size Table key is
realized in some source's data (every tracked key was written to, or
reloaded into, its source). -/
def ownedInv (s : MSState) : Prop :=
  ∀ k, k ∈ dKeys s.key_sizes → ownedSomewhere s.sources k = true

theorem ms_pick_spec (s : MSState) (k : String)
    (h : pickCandidate s = some k) : k ∈ allKeys s ∧ k ∉ s.unloaded_keys := by
  unfold pickCandidate at h
  cases hc : candidatesOf s with
  | cons c cs =>
      rw [hc] at h
      have hEq : pyMax (fun k => (dGet? s.key_sizes k).getD 0) c cs = k := by
        simpa using h
      have hmem : k ∈ candidatesOf s := by
        rw [hc, ← hEq]
        exact pyMax_mem _ c cs
      unfold candidatesOf at hmem
      obtain ⟨hmem1, hmem2⟩ := List.mem_filter.mp hmem
      refine ⟨List.mem_append.mpr (Or.inl hmem1), fun hk => ?_⟩
      rw [Bool.not_eq_true'] at hmem2
      have h3 : s.unloaded_keys.contains k = true := List.elem_eq_true_of_mem hk
      rw [h3] at hmem2
      exact Bool.noConfusion hmem2
  | nil =>
      rw [hc] at h
      have h' : List.find? (fun k => !s.unloaded_keys.contains k)
          (combined s.sources).keys = some k := by
        simpa using h
      have h1 := List.mem_of_find?_eq_some h'
      have h2 := List.find?_some h'
      refine ⟨List.mem_append.mpr (Or.inr h1), fun hk => ?_⟩
      rw [Bool.not_eq_true'] at h2
      have h3 : s.unloaded_keys.contains k = true := List.elem_eq_true_of_mem hk
      rw [h3] at h2
      exact Bool.noConfusion h2

theorem mem_keys_updateAll (acc d : Fields) (x : String) :
    x ∈ (combined.updateAll acc d).keys ↔ x ∈ acc.keys ∨ x ∈ d.keys := by
  induction d generalizing acc with
  | nil => simp [combined.updateAll, Fields.keys]
  | cons k v t ih =>
      simp only [combined.updateAll, Fields.keys, List.mem_cons]
      rw [ih]
      constructor
      · rintro (h | h)
        · rcases Fields.mem_keys_set _ _ _ _ h with h2 | h2
          · exact Or.inl h2
          · exact Or.inr (Or.inl h2)
        · exact Or.inr (Or.inr h)
      · rintro (h | h | h)
        · exact Or.inl (Fields.keys_mono_set _ _ _ _ h)
        · exact Or.inl (h ▸ Fields.self_mem_keys_set acc k v)
        · exact Or.inr h

theorem mem_keys_combined_aux (srcs : List (String × DataSource)) :
    ∀ (acc : Fields) (x : String),
      x ∈ (srcs.foldl (fun a e => combined.updateAll a e.2.data) acc).keys ↔
        x ∈ acc.keys ∨ ∃ e ∈ srcs, x ∈ e.2.data.keys := by
  induction srcs with
  | nil => simp
  | cons e t ih =>
      intro acc x
      simp only [List.foldl_cons]
      rw [ih, mem_keys_updateAll]
      constructor
      · rintro ((h | h) | h)
        · exact Or.inl h
        · exact Or.inr ⟨e, by simp, h⟩
        · rcases h with ⟨e2, he2, hx⟩
          exact Or.inr ⟨e2, by simp [he2], hx⟩
      · rintro (h | ⟨e2, he2, hx⟩)
        · exact Or.inl (Or.inl h)
        · rcases List.mem_cons.mp he2 with rfl | he2'
          · exact Or.inl (Or.inr hx)
          · exact Or.inr ⟨e2, he2', hx⟩

theorem mem_keys_combined (srcs : List (String × DataSource)) (x : String) :
    x ∈ (combined srcs).keys ↔ ∃ e ∈ srcs, x ∈ e.2.data.keys := by
  unfold combined
  rw [mem_keys_combined_aux]
  simp [Fields.keys]

theorem ownedSomewhere_iff (srcs : List (String × DataSource)) (k : String) :
    ownedSomewhere srcs k = true ↔ ∃ e ∈ srcs, k ∈ e.2.data.keys := by
  unfold ownedSomewhere
  rw [List.any_eq_true]
  constructor
  · rintro ⟨e, he, hk⟩
    exact ⟨e, he, (Fields.hasKey_iff _ _).mp hk⟩
  · rintro ⟨e, he, hk⟩
    exact ⟨e, he, (Fields.hasKey_iff _ _).mpr hk⟩

theorem owned_of_pick (s : MSState) (k : String) (hinv : ownedInv s)
    (h : pickCandidate s = some k) : ownedSomewhere s.sources k = true := by
  rcases List.mem_append.mp (ms_pick_spec s k h).1 with h1 | h1
  · exact hinv k h1
  · exact (ownedSomewhere_iff _ _).mpr ((mem_keys_combined _ _).mp h1)

theorem mem_writeFirstOwner (srcs : List (String × DataSource)) (k x : String)
    (v : Value) (e' : String × DataSource)
    (h : e' ∈ writeFirstOwner srcs k v) (hx : x ∈ e'.2.data.keys) :
    (∃ e ∈ srcs, x ∈ e.2.data.keys) ∨ x = k := by
  induction srcs with
  | nil => simp [writeFirstOwner] at h
  | cons e t ih =>
      by_cases h2 : e.2.data.hasKey k
      · simp only [writeFirstOwner, if_pos h2, List.mem_cons] at h
        rcases h with rfl | h
        · rcases Fields.mem_keys_set _ _ _ _ hx with h3 | h3
          · exact Or.inl ⟨e, by simp, h3⟩
          · exact Or.inr h3
        · exact Or.inl ⟨e', List.mem_cons.mpr (Or.inr h), hx⟩
      · simp only [writeFirstOwner, if_neg h2, List.mem_cons] at h
        rcases h with rfl | h
        · exact Or.inl ⟨e', by simp, hx⟩
        · rcases ih h with ⟨e2, he2, hx2⟩ | h3
          · exact Or.inl ⟨e2, List.mem_cons.mpr (Or.inr he2), hx2⟩
          · exact Or.inr h3

theorem ms_mem_allKeys_evict (s : MSState) (k x : String)
    (h : x ∈ allKeys (evictOne s k)) : x ∈ allKeys s ∨ x = k := by
  unfold evictOne at h
  by_cases howned : ownedSomewhere s.sources k = true
  · rw [if_pos howned] at h
    unfold allKeys at h
    rcases List.mem_append.mp h with h1 | h1
    · exact Or.inl (List.mem_append.mpr (Or.inl (mem_dKeys_erase _ _ _ h1)))
    · rcases (mem_keys_combined _ _).mp h1 with ⟨e', he', hx⟩
      rcases mem_writeFirstOwner _ _ _ _ _ he' hx with ⟨e, he, hx2⟩ | h3
      · exact Or.inl (List.mem_append.mpr (Or.inr ((mem_keys_combined _ _).mpr ⟨e, he, hx2⟩)))
      · exact Or.inr h3
  · rw [if_neg howned] at h
    exact Or.inl h

theorem ms_liveCard_evict_lt (s : MSState) (k : String) (hinv : ownedInv s)
    (h : pickCandidate s = some k) : liveCard (evictOne s k) < liveCard s := by
  obtain ⟨hmem, hnot⟩ := ms_pick_spec s k h
  have howned := owned_of_pick s k hinv h
  have huk : (evictOne s k).unloaded_keys = insertU k s.unloaded_keys := by
    unfold evictOne
    rw [if_pos howned]
  apply Finset.card_lt_card
  have hsub : (allKeys (evictOne s k)).toFinset \ (evictOne s k).unloaded_keys.toFinset ⊆
      (allKeys s).toFinset \ s.unloaded_keys.toFinset := by
    intro x hx
    rcases Finset.mem_sdiff.mp hx with ⟨hx1, hx2⟩
    have hx1' := List.mem_toFinset.mp hx1
    have hx2' : x ∉ (evictOne s k).unloaded_keys := fun hh => hx2 (List.mem_toFinset.mpr hh)
    rw [huk] at hx2'
    have hxk : x ≠ k := fun hh => hx2' ((mem_insertU _ _ _).mpr (Or.inl hh))
    have hxu2 : x ∉ s.unloaded_keys := fun hh => hx2' ((mem_insertU _ _ _).mpr (Or.inr hh))
    rcases ms_mem_allKeys_evict s k x hx1' with h1 | h1
    · exact Finset.mem_sdiff.mpr ⟨List.mem_toFinset.mpr h1,
        fun hh => hxu2 (List.mem_toFinset.mp hh)⟩
    · exact absurd h1 hxk
  refine (Finset.ssubset_iff_of_subset hsub).mpr ⟨k, ?_, ?_⟩
  · exact Finset.mem_sdiff.mpr ⟨List.mem_toFinset.mpr hmem,
      fun hh => hnot (List.mem_toFinset.mp hh)⟩
  · intro hk
    have := (Finset.mem_sdiff.mp hk).2
    rw [huk] at this
    exact this (List.mem_toFinset.mpr ((mem_insertU _ _ _).mpr (Or.inl rfl)))

theorem owned_mono_writeFirstOwner (srcs : List (String × DataSource))
    (k x : String) (v : Value) (h : ∃ e ∈ srcs, x ∈ e.2.data.keys) :
    ∃ e ∈ writeFirstOwner srcs k v, x ∈ e.2.data.keys := by
  induction srcs with
  | nil =>
      rcases h with ⟨e, he, hx⟩
      simp at he
  | cons e0 t ih =>
      rcases h with ⟨e, he, hx⟩
      by_cases h2 : e0.2.data.hasKey k
      · simp only [writeFirstOwner, if_pos h2]
        rcases List.mem_cons.mp he with rfl | he'
        · exact ⟨(e.1, { e.2 with data := e.2.data.set k v }), by simp,
            Fields.keys_mono_set _ _ _ _ hx⟩
        · exact ⟨e, List.mem_cons.mpr (Or.inr he'), hx⟩
      · simp only [writeFirstOwner, if_neg h2]
        rcases List.mem_cons.mp he with rfl | he'
        · exact ⟨e, by simp, hx⟩
        · rcases ih ⟨e, he', hx⟩ with ⟨e2, he2, hx2⟩
          exact ⟨e2, List.mem_cons.mpr (Or.inr he2), hx2⟩

theorem ownedInv_evict (s : MSState) (k : String) (hinv : ownedInv s) :
    ownedInv (evictOne s k) := by
  unfold evictOne
  by_cases howned : ownedSomewhere s.sources k = true
  · rw [if_pos howned]
    intro x hx
    have hx2 : x ∈ dKeys s.key_sizes := mem_dKeys_erase _ _ _ hx
    rcases (ownedSomewhere_iff _ _).mp (hinv x hx2) with ⟨e, he, hxk⟩
    rw [ownedSomewhere_iff]
    exact owned_mono_writeFirstOwner _ _ _ _ ⟨e, he, hxk⟩
  · rw [if_neg howned]
    exact hinv

theorem ms_unloadLoop_done : ∀ (n : Nat) (s : MSState), liveCard s < n →
    ownedInv s → evictionDone (unloadLoop n s)
  | 0, _, h, _ => absurd h (by omega)
  | n + 1, s, h, hinv => by
      by_cases hover : current_memory_size s > s.max_memory_size
      · cases hp : pickCandidate s with
        | none =>
            simp only [unloadLoop, if_pos hover, hp]
            exact Or.inr hp
        | some k =>
            simp only [unloadLoop, if_pos hover, hp]
            exact ms_unloadLoop_done n (evictOne s k)
              (by have := ms_liveCard_evict_lt s k hinv hp; omega)
              (ownedInv_evict s k hinv)
      · simp only [unloadLoop, if_neg hover]
        exact Or.inl (le_of_not_lt hover)

theorem ms_liveCard_lt_fuel (s : MSState) :
    liveCard s < s.key_sizes.length + (combined s.sources).length + 1 := by
  have h1 : liveCard s ≤ (allKeys s).toFinset.card :=
    Finset.card_le_card (Finset.sdiff_subset)
  have h2 : (allKeys s).toFinset.card ≤ (allKeys s).length := List.toFinset_card_le _
  have h3 : (allKeys s).length = s.key_sizes.length + (combined s.sources).length := by
    unfold allKeys
    rw [List.length_append, Fields.length_keys]
    simp [dKeys]
  omega

theorem ms_unload_if_needed_done (s : MSState) (hinv : ownedInv s) :
    evictionDone (unload_if_needed s) :=
  ms_unloadLoop_done _ s (ms_liveCard_lt_fuel s) hinv

theorem ms_unload_if_needed_noop (s : MSState) (hp : pickCandidate s = none) :
    unload_if_needed s = s := by
  unfold unload_if_needed
  by_cases hover : current_memory_size s > s.max_memory_size
  · simp [unloadLoop, hover, hp]
  · simp [unloadLoop, hover]

/-- Any property preserved by one eviction action is preserved by the
whole loop. -/
theorem unloadLoop_preserves (P : MSState → Prop)
    (hstep : ∀ s k, pickCandidate s = some k → P s → P (evictOne s k)) :
    ∀ (n : Nat) (s : MSState), P s → P (unloadLoop n s)
  | 0, _, h => h
  | n + 1, s, h => by
      by_cases hover : current_memory_size s > s.max_memory_size
      · cases hp : pickCandidate s with
        | none => simpa only [unloadLoop, if_pos hover, hp] using h
        | some k =>
            simp only [unloadLoop, if_pos hover, hp]
            exact unloadLoop_preserves P hstep n (evictOne s k) (hstep s k hp h)
      · simpa only [unloadLoop, if_neg hover] using h

end JsonDataReflectorMultiSource

/-! ### Congruence of the combined view under single-key rewrites -/

theorem Fields.keys_set_of_not_mem (m : Fields) (k : String) (v : Value)
    (h : k ∉ m.keys) : (m.set k v).keys = m.keys ++ [k] := by
  induction m with
  | nil => simp [Fields.set, Fields.keys]
  | cons k' v' t ih =>
      simp only [Fields.keys, List.mem_cons, not_or] at h
      have : ¬k' = k := fun hh => h.1 hh.symm
      simp [Fields.set, this, Fields.keys, ih h.2]

theorem Fields.keys_set_congr (a a' : Fields) (k : String) (x y : Value)
    (h : a'.keys = a.keys) : (a'.set k x).keys = (a.set k y).keys := by
  by_cases hm : k ∈ a.keys
  · rw [Fields.keys_set_of_mem _ _ _ hm, Fields.keys_set_of_mem _ _ _ (h ▸ hm), h]
  · rw [Fields.keys_set_of_not_mem _ _ _ hm,
      Fields.keys_set_of_not_mem _ _ _ (h ▸ hm), h]

namespace JsonDataReflectorMultiSource

/-- `updateAll` applied to the same dict, from accumulators that agree
on keys and on every value except possibly at `key`, preserves that
agreement. -/
theorem updateAll_acc_congr (key : String) :
    ∀ (d acc acc' : Fields),
    acc'.keys = acc.keys → (∀ x, x ≠ key → acc'.get? x = acc.get? x) →
    (combined.updateAll acc' d).keys = (combined.updateAll acc d).keys ∧
    (∀ x, x ≠ key →
      (combined.updateAll acc' d).get? x = (combined.updateAll acc d).get? x)
  | .nil, acc, acc', hkeys, hget => ⟨hkeys, hget⟩
  | .cons k2 w2 t, acc, acc', hkeys, hget => by
      simp only [combined.updateAll]
      refine updateAll_acc_congr key t (acc.set k2 w2) (acc'.set k2 w2)
        (Fields.keys_set_congr _ _ _ _ _ hkeys) ?_
      intro x hx
      by_cases hxk : x = k2
      · subst hxk
        rw [Fields.get?_set_self, Fields.get?_set_self]
      · rw [Fields.get?_set_ne _ _ _ _ hxk, Fields.get?_set_ne _ _ _ _ hxk]
        exact hget x hx

/-- `updateAll` applied to a dict with one existing key's value
rewritten: keys are unchanged and every other value is unchanged. -/
theorem updateAll_setkey_congr (key : String) (v : Value) :
    ∀ (d acc acc' : Fields), key ∈ d.keys →
    acc'.keys = acc.keys → (∀ x, x ≠ key → acc'.get? x = acc.get? x) →
    (combined.updateAll acc' (d.set key v)).keys = (combined.updateAll acc d).keys ∧
    (∀ x, x ≠ key →
      (combined.updateAll acc' (d.set key v)).get? x = (combined.updateAll acc d).get? x)
  | .nil, _, _, hd, _, _ => by simp [Fields.keys] at hd
  | .cons k2 w2 t, acc, acc', hd, hkeys, hget => by
      by_cases hk2 : k2 = key
      · subst hk2
        simp only [Fields.set, if_pos rfl, combined.updateAll]
        refine updateAll_acc_congr k2 t (acc.set k2 w2) (acc'.set k2 v)
          (Fields.keys_set_congr _ _ _ _ _ hkeys) ?_
        intro x hx
        have hxk : x ≠ k2 := hx
        rw [Fields.get?_set_ne _ _ _ _ hxk, Fields.get?_set_ne _ _ _ _ hxk]
        exact hget x hx
      · have hd' : key ∈ t.keys := by
          simp only [Fields.keys, List.mem_cons] at hd
          rcases hd with hd | hd
          · exact absurd hd.symm hk2
          · exact hd
        have : ¬k2 = key := hk2
        simp only [Fields.set, if_neg this, combined.updateAll]
        refine updateAll_setkey_congr key v t (acc.set k2 w2) (acc'.set k2 w2) hd'
          (Fields.keys_set_congr _ _ _ _ _ hkeys) ?_
        intro x hx
        by_cases hxk : x = k2
        · subst hxk
          rw [Fields.get?_set_self, Fields.get?_set_self]
        · rw [Fields.get?_set_ne _ _ _ _ hxk, Fields.get?_set_ne _ _ _ _ hxk]
          exact hget x hx

/-- The entries of `updateAt`. -/
theorem updateAt_cons (e : String × DataSource) (t : List (String × DataSource))
    (sid : String) (f : DataSource → DataSource) :
    updateAt (e :: t) sid f =
      (if e.1 = sid then (e.1, f e.2) else e) :: updateAt t sid f := rfl

/-- Saving `{key: v}` into the sources named `sid` — when each of them
already realizes `key` — leaves the combined view's keys unchanged and
every other key's combined value unchanged. -/
theorem combined_save_congr (key sid : String) (v : Value) :
    ∀ (srcs : List (String × DataSource)) (acc acc' : Fields),
    (∀ e ∈ srcs, e.1 = sid → e.2.data.hasKey key = true) →
    acc'.keys = acc.keys → (∀ x, x ≠ key → acc'.get? x = acc.get? x) →
    ((updateAt srcs sid (fun src => sourceSet src key v)).foldl
        (fun a e => combined.updateAll a e.2.data) acc').keys =
      (srcs.foldl (fun a e => combined.updateAll a e.2.data) acc).keys ∧
    (∀ x, x ≠ key →
      ((updateAt srcs sid (fun src => sourceSet src key v)).foldl
          (fun a e => combined.updateAll a e.2.data) acc').get? x =
        (srcs.foldl (fun a e => combined.updateAll a e.2.data) acc).get? x)
  | [], acc, acc', _, hkeys, hget => by
      simpa [updateAt] using ⟨hkeys, hget⟩
  | e :: t, acc, acc', hQ, hkeys, hget => by
      rw [updateAt_cons]
      simp only [List.foldl_cons]
      by_cases hsid : e.1 = sid
      · simp only [if_pos hsid]
        have hkey : key ∈ e.2.data.keys :=
          (Fields.hasKey_iff _ _).mp (hQ e (by simp) hsid)
        have step := updateAll_setkey_congr key v e.2.data acc acc' hkey hkeys hget
        exact combined_save_congr key sid v t _ _
          (fun e2 he2 hs => hQ e2 (List.mem_cons.mpr (Or.inr he2)) hs)
          step.1 step.2
      · simp only [if_neg hsid]
        have step := updateAll_acc_congr key e.2.data acc acc' hkeys hget
        exact combined_save_congr key sid v t _ _
          (fun e2 he2 hs => hQ e2 (List.mem_cons.mpr (Or.inr he2)) hs)
          step.1 step.2

end JsonDataReflectorMultiSource

theorem dGet?_mem {α : Type} (l : List (String × α)) (k : String) (v : α)
    (h : dGet? l k = some v) : (k, v) ∈ l := by
  induction l with
  | nil => simp [dGet?] at h
  | cons e t ih =>
      by_cases h2 : e.1 = k
      · simp only [dGet?, if_pos h2, Option.some.injEq] at h
        subst h
        subst h2
        exact List.mem_cons.mpr (Or.inl rfl)
      · simp only [dGet?, if_neg h2] at h
        exact List.mem_cons.mpr (Or.inr (ih h))

theorem Fields.hasKey_set_self (m : Fields) (k : String) (v : Value) :
    (m.set k v).hasKey k = true :=
  (Fields.hasKey_iff _ _).mpr (Fields.self_mem_keys_set m k v)

namespace JsonDataReflectorMultiSource

theorem route_mem (srcs : List (String × DataSource)) (key : String)
    (sid? : Option String) (target : String × DataSource)
    (h : routeFor srcs key sid? = some target) : target ∈ srcs := by
  unfold routeFor at h
  cases sid? with
  | some sid =>
      dsimp only at h
      by_cases hc : (decide (sid ≠ emptyStr) && dHasKey srcs sid) = true
      · rw [if_pos hc] at h
        cases hg : dGet? srcs sid with
        | none => rw [hg] at h; simp at h
        | some src =>
            rw [hg] at h
            simp only [Option.map_some', Option.some.injEq] at h
            subst h
            exact dGet?_mem _ _ _ hg
      · rw [if_neg hc] at h
        cases hf : srcs.find? (fun e => e.2.data.hasKey key) with
        | some e =>
            rw [hf] at h
            simp only [Option.some.injEq] at h
            subst h
            exact List.mem_of_find?_eq_some hf
        | none =>
            rw [hf] at h
            exact List.mem_of_mem_head? h
  | none =>
      dsimp only at h
      cases hf : srcs.find? (fun e => e.2.data.hasKey key) with
      | some e =>
          rw [hf] at h
          simp only [Option.some.injEq] at h
          subst h
          exact List.mem_of_find?_eq_some hf
      | none =>
          rw [hf] at h
          exact List.mem_of_mem_head? h

theorem mem_updateAt (srcs : List (String × DataSource)) (sid : String)
    (f : DataSource → DataSource) (e' : String × DataSource)
    (h : e' ∈ updateAt srcs sid f) :
    ∃ e ∈ srcs, e' = if e.1 = sid then (e.1, f e.2) else e := by
  unfold updateAt at h
  rcases List.mem_map.mp h with ⟨e, he, hee⟩
  exact ⟨e, he, hee.symm⟩

theorem updateAt_id (srcs : List (String × DataSource)) (sid : String)
    (f : DataSource → DataSource)
    (h : ∀ e ∈ srcs, e.1 = sid → f e.2 = e.2) : updateAt srcs sid f = srcs := by
  induction srcs with
  | nil => rfl
  | cons e t ih =>
      rw [updateAt_cons]
      by_cases h2 : e.1 = sid
      · rw [if_pos h2, h e (by simp) h2]
        rw [ih fun e2 he2 hs => h e2 (List.mem_cons.mpr (Or.inr he2)) hs]
      · rw [if_neg h2]
        rw [ih fun e2 he2 hs => h e2 (List.mem_cons.mpr (Or.inr he2)) hs]

theorem writeFirstOwner_entries (srcs : List (String × DataSource))
    (k : String) (v : Value) :
    ∀ e' ∈ writeFirstOwner srcs k v, ∃ e ∈ srcs,
      e'.1 = e.1 ∧ e'.2.source_id = e.2.source_id ∧ e'.2.keys = e.2.keys ∧
      (e'.2.data = e.2.data ∨ e'.2.data = e.2.data.set k v) := by
  induction srcs with
  | nil => intro e' h; simp [writeFirstOwner] at h
  | cons e0 t ih =>
      intro e' h
      by_cases h2 : e0.2.data.hasKey k
      · simp only [writeFirstOwner, if_pos h2, List.mem_cons] at h
        rcases h with rfl | h
        · exact ⟨e0, by simp, rfl, rfl, rfl, Or.inr rfl⟩
        · exact ⟨e', List.mem_cons.mpr (Or.inr h), rfl, rfl, rfl, Or.inl rfl⟩
      · simp only [writeFirstOwner, if_neg h2, List.mem_cons] at h
        rcases h with rfl | h
        · exact ⟨e', by simp, rfl, rfl, rfl, Or.inl rfl⟩
        · rcases ih e' h with ⟨e2, he2, h3⟩
          exact ⟨e2, List.mem_cons.mpr (Or.inr he2), h3⟩

/-- The per-target invariants carried through the eviction loop to the
persistence step of `set`: every source registered under the routed
name realizes the root key, has it in its bookkeeping set, and holds
either the caller's value or an eviction mark recorded in the Unloaded
Set. -/
def saveInv (tsid key : String) (v : Value) (s : MSState) : Prop :=
  ∀ e ∈ s.sources, e.1 = tsid →
    e.2.data.hasKey key = true ∧ key ∈ e.2.keys ∧
      (e.2.data.get? key = some v ∨ key ∈ s.unloaded_keys)

theorem saveInv_evict (tsid key : String) (v : Value) (s : MSState) (k : String)
    (h : saveInv tsid key v s) : saveInv tsid key v (evictOne s k) := by
  unfold evictOne
  by_cases howned : ownedSomewhere s.sources k = true
  · rw [if_pos howned]
    intro e' he' hsid
    rcases writeFirstOwner_entries _ _ _ e' he' with ⟨e, he, h1, _, h3, h4⟩
    obtain ⟨hq, hk, hp⟩ := h e (by exact he) (h1 ▸ hsid)
    refine ⟨?_, h3 ▸ hk, ?_⟩
    · rcases h4 with h4 | h4
      · rw [h4]; exact hq
      · rw [h4]; exact Fields.hasKey_mono_set _ _ _ _ hq
    · by_cases hkk : k = key
      · subst hkk
        exact Or.inr ((mem_insertU _ _ _).mpr (Or.inl rfl))
      · rcases hp with hp | hp
        · rcases h4 with h4 | h4
          · exact Or.inl (h4 ▸ hp)
          · refine Or.inl ?_
            rw [h4, Fields.get?_set_ne _ _ _ _ (fun hh => hkk hh.symm)]
            exact hp
        · exact Or.inr ((mem_insertU _ _ _).mpr (Or.inr hp))
  · rw [if_neg howned]
    exact h

theorem selectF_congr (md md' : Fields) (l : List String)
    (h : ∀ x ∈ l, md'.get? x = md.get? x) :
    current_memory_size.selectF md' l = current_memory_size.selectF md l := by
  induction l with
  | nil => rfl
  | cons x t ih =>
      simp only [current_memory_size.selectF]
      rw [h x (by simp), ih fun y hy => h y (List.mem_cons.mpr (Or.inr hy))]

theorem size_pick_congr (s2 : MSState) (srcs3 : List (String × DataSource))
    (key : String)
    (hkeys : (combined srcs3).keys = (combined s2.sources).keys)
    (hget : ∀ x, x ≠ key → (combined srcs3).get? x = (combined s2.sources).get? x)
    (hu : key ∈ s2.unloaded_keys) :
    current_memory_size { s2 with sources := srcs3 } = current_memory_size s2 ∧
    pickCandidate { s2 with sources := srcs3 } = pickCandidate s2 := by
  constructor
  · unfold current_memory_size
    dsimp only
    rw [hkeys]
    cases hsk : (combined s2.sources).keys.filter
        (fun k => !dHasKey s2.key_sizes k && !s2.unloaded_keys.contains k) with
    | nil => rfl
    | cons a l =>
        have hcong : ∀ x ∈ a :: l,
            (combined srcs3).get? x = (combined s2.sources).get? x := by
          intro x hx
          have hxf : x ∈ (combined s2.sources).keys.filter
              (fun k => !dHasKey s2.key_sizes k && !s2.unloaded_keys.contains k) := by
            rw [hsk]; exact hx
          have := (List.mem_filter.mp hxf).2
          rw [Bool.and_eq_true, Bool.not_eq_true', Bool.not_eq_true'] at this
          refine hget x fun hh => ?_
          subst hh
          have hcx : s2.unloaded_keys.contains x = true := List.elem_eq_true_of_mem hu
          rw [hcx] at this
          exact Bool.noConfusion this.2
        rw [selectF_congr _ _ _ hcong]
  · unfold pickCandidate candidatesOf
    dsimp only
    rw [hkeys]

end JsonDataReflectorMultiSource

namespace JsonDataReflectorMultiSource

theorem sourceSet_id (src : DataSource) (key : String) (v : Value)
    (hd : src.data.get? key = some v) (hk : key ∈ src.keys) :
    sourceSet src key v = src := by
  unfold sourceSet insertU
  rw [Fields.set_get?_self _ _ _ hd, if_pos hk]

theorem mem_updateAt_of_mem (srcs : List (String × DataSource)) (sid : String)
    (f : DataSource → DataSource) (e : String × DataSource) (he : e ∈ srcs)
    (h2 : e.1 = sid) : (e.1, f e.2) ∈ updateAt srcs sid f := by
  unfold updateAt
  have h3 := List.mem_map_of_mem
    (fun e => if e.1 = sid then (e.1, f e.2) else e) he
  simp only at h3
  rw [if_pos h2] at h3
  exact h3

theorem mem_updateAt_of_mem_ne (srcs : List (String × DataSource)) (sid : String)
    (f : DataSource → DataSource) (e : String × DataSource) (he : e ∈ srcs)
    (h2 : ¬e.1 = sid) : e ∈ updateAt srcs sid f := by
  unfold updateAt
  have h3 := List.mem_map_of_mem
    (fun e => if e.1 = sid then (e.1, f e.2) else e) he
  simp only at h3
  rw [if_neg h2] at h3
  exact h3

theorem owned_mono_updateAt (srcs : List (String × DataSource)) (sid key k' : String)
    (v : Value) (h : ownedSomewhere srcs k' = true) :
    ownedSomewhere (updateAt srcs sid (fun src => sourceSet src key v)) k' = true := by
  rw [ownedSomewhere_iff] at h ⊢
  rcases h with ⟨e, he, hk⟩
  by_cases h2 : e.1 = sid
  · exact ⟨(e.1, sourceSet e.2 key v),
      mem_updateAt_of_mem _ _ _ _ he h2, Fields.keys_mono_set _ _ _ _ hk⟩
  · exact ⟨e, mem_updateAt_of_mem_ne _ _ _ _ he h2, hk⟩

/-- The state of `set` right before the eviction loop satisfies the
per-target persistence invariants. -/
theorem saveInv_mid (s : MSState) (key : String) (v : Value) (tsid : String)
    (ks1 : List (String × Nat)) :
    saveInv tsid key v
      { s with sources := updateAt s.sources tsid (fun src => sourceSet src key v),
               key_sizes := ks1 } := by
  intro e' he' hsid
  dsimp only at he' hsid ⊢
  rcases mem_updateAt _ _ _ e' he' with ⟨e, he, hee⟩
  by_cases h2 : e.1 = tsid
  · rw [if_pos h2] at hee
    subst hee
    exact ⟨Fields.hasKey_set_self _ _ _,
      (mem_insertU _ _ _).mpr (Or.inl rfl),
      Or.inl (Fields.get?_set_self _ _ _)⟩
  · rw [if_neg h2] at hee
    subst hee
    exact absurd hsid h2

/-- The state of `set` right before the eviction loop keeps all Size
Table keys realized. -/
theorem ownedInv_mid (s : MSState) (key : String) (v : Value)
    (target : String × DataSource) (htmem : target ∈ s.sources)
    (hown : ownedInv s) :
    ownedInv { s with
      sources := updateAt s.sources target.1 (fun src => sourceSet src key v),
      key_sizes := if jsonSize v > s.large_key_threshold
        then dSet s.key_sizes key (jsonSize v) else dErase s.key_sizes key } := by
  intro k' hk'
  dsimp only at hk' ⊢
  have hcase : k' ∈ dKeys s.key_sizes ∨ k' = key := by
    by_cases hsz : jsonSize v > s.large_key_threshold
    · rw [if_pos hsz] at hk'
      exact mem_dKeys_set _ _ _ _ hk'
    · rw [if_neg hsz] at hk'
      exact Or.inl (mem_dKeys_erase _ _ _ hk')
  rcases hcase with h1 | rfl
  · exact owned_mono_updateAt _ _ _ _ _ (hown k' h1)
  · rw [ownedSomewhere_iff]
    exact ⟨(target.1, sourceSet target.2 k' v),
      mem_updateAt_of_mem _ _ _ _ htmem rfl,
      Fields.self_mem_keys_set _ _ _⟩

theorem saveInv_unload (tsid key : String) (v : Value) (s : MSState)
    (h : saveInv tsid key v s) : saveInv tsid key v (unload_if_needed s) := by
  unfold unload_if_needed
  exact unloadLoop_preserves _ (fun st k _ hh => saveInv_evict _ _ _ st k hh) _ s h

/-- The terminal condition is insensitive to the accessor snapshot. -/
theorem done_accessor (s : MSState) (a : Value) (h : evictionDone s) :
    evictionDone { s with accessor_data := a } := h

/-- The persistence step of `set` — re-writing the caller's value into
the sources named by the target's `source_id` — preserves the terminal
condition, given the per-target invariants. -/
theorem save_done (s2 : MSState) (key tsid : String) (v : Value)
    (hdone2 : evictionDone s2) (hQKP2 : saveInv tsid key v s2) :
    evictionDone (if dHasKey s2.sources tsid = true
      then { s2 with sources := updateAt s2.sources tsid (fun src => sourceSet src key v) }
      else s2) := by
  by_cases hs3 : dHasKey s2.sources tsid = true
  · rw [if_pos hs3]
    by_cases hu : key ∈ s2.unloaded_keys
    · have hQ2 : ∀ e ∈ s2.sources, e.1 = tsid → e.2.data.hasKey key = true :=
        fun e he h1 => (hQKP2 e he h1).1
      have hcongr := combined_save_congr key tsid v s2.sources
        Fields.nil Fields.nil hQ2 rfl (fun _ _ => rfl)
      have hsp := size_pick_congr s2
        (updateAt s2.sources tsid (fun src => sourceSet src key v)) key
        hcongr.1 hcongr.2 hu
      unfold evictionDone
      rw [hsp.1, hsp.2]
      exact hdone2
    · have hid : updateAt s2.sources tsid (fun src => sourceSet src key v) =
          s2.sources := by
        refine updateAt_id _ _ _ ?_
        intro e he h1
        obtain ⟨_, hk, hp⟩ := hQKP2 e he h1
        rcases hp with hp | hp
        · exact sourceSet_id _ _ _ hp hk
        · exact absurd hp hu
      rw [hid]
      exact hdone2
  · rw [if_neg hs3]
    exact hdone2

/-- After a successful multi-source `set` on a registry whose
`source_id` fields agree with its registry names and whose Size Table
keys are all realized, the resulting state satisfies the eviction
engine's terminal condition. -/
theorem ms_set_done (s : MSState) (p : String) (v : Value) (sid? : Option String)
    (s' : MSState) (hown : ownedInv s)
    (hfield : ∀ e ∈ s.sources, e.2.source_id = e.1)
    (hset : set s p v sid? = some s') : evictionDone s' := by
  unfold set at hset
  dsimp only at hset
  cases hroute : routeFor s.sources ((splitDots p).headD emptyStr) sid? with
  | none =>
      rw [hroute] at hset
      simp at hset
  | some target =>
      rw [hroute] at hset
      dsimp only at hset
      obtain rfl := Option.some.inj hset
      have htmem := route_mem _ _ _ _ hroute
      have htsid := hfield target htmem
      refine done_accessor _ _ ?_
      rw [htsid]
      exact save_done _ _ _ _
        (ms_unload_if_needed_done _
          (ownedInv_mid s ((splitDots p).headD emptyStr) v target htmem hown))
        (saveInv_unload _ _ _ _
          (saveInv_mid s ((splitDots p).headD emptyStr) v target.1 _))

end JsonDataReflectorMultiSource

/-! ### The single-source `set` pipeline -/

theorem splitAux_ne_nil : ∀ (l acc : List Char), splitAux l acc ≠ []
  | [], _ => by simp [splitAux]
  | c :: t, acc => by
      by_cases h : c = '.'
      · simp [splitAux, h]
      · simp only [splitAux, if_neg h]
        exact splitAux_ne_nil t (c :: acc)

theorem splitDots_eq_head_cons (p : String) :
    ∃ t, splitDots p = ((splitDots p).headD emptyStr) :: t := by
  cases h : splitDots p with
  | nil => exact absurd h (splitAux_ne_nil _ _)
  | cons a t => exact ⟨t, by simp⟩

theorem Fields.get?_isSome_of_mem (m : Fields) (k : String) (h : k ∈ m.keys) :
    ∃ w, m.get? k = some w := by
  induction m with
  | nil => simp [Fields.keys] at h
  | cons k' v' t ih =>
      by_cases h2 : k' = k
      · exact ⟨v', by simp [Fields.get?, h2]⟩
      · simp only [Fields.keys, List.mem_cons] at h
        rcases h with h | h
        · exact absurd h.symm h2
        · rcases ih h with ⟨w, hw⟩
          exact ⟨w, by simp [Fields.get?, h2, hw]⟩

theorem mem_keys_doSet_head (md : Fields) (k : String) (rest : List String)
    (v : Value) : k ∈ (doSet md (k :: rest) v).keys := by
  cases rest with
  | nil => exact Fields.self_mem_keys_set _ _ _
  | cons r t => exact Fields.self_mem_keys_set _ _ _

namespace JsonDataReflector

/-- After every single-source `set`, the state satisfies the eviction
engine's terminal condition: the persistence step writes back the value
the managed dict already holds, so it changes nothing. -/
theorem rset_done (s : RState) (p : String) (v : Value) :
    evictionDone (JsonDataReflector.set s p v).1 := by
  unfold JsonDataReflector.set
  dsimp only
  obtain ⟨t, ht⟩ := splitDots_eq_head_cons p
  have hkey1 : (splitDots p).headD emptyStr ∈
      (doSet s.managed_data (splitDots p) v).keys := by
    rw [ht]
    exact mem_keys_doSet_head _ _ _ _
  have hkey2 : (splitDots p).headD emptyStr ∈
      (unload_if_needed { s with
        managed_data := doSet s.managed_data (splitDots p) v,
        key_sizes := if jsonSize (((doSet s.managed_data (splitDots p) v).get?
              ((splitDots p).headD emptyStr)).getD .null) > s.large_key_threshold
          then dSet s.key_sizes ((splitDots p).headD emptyStr)
            (jsonSize (((doSet s.managed_data (splitDots p) v).get?
              ((splitDots p).headD emptyStr)).getD .null))
          else dErase s.key_sizes ((splitDots p).headD emptyStr) }).managed_data.keys := by
    unfold unload_if_needed
    exact unloadLoop_keys_mono _ _ _ hkey1
  obtain ⟨w, hw⟩ := Fields.get?_isSome_of_mem _ _ hkey2
  simp only [List.foldl_cons, List.foldl_nil, hw, Option.getD_some]
  rw [Fields.set_get?_self _ _ _ hw]
  exact unload_if_needed_done _

end JsonDataReflector

/-! ### Frame, persistence and round-trip lemmas -/

namespace JsonDataReflector

/-- `get` on a value that is not the sentinel returns it and leaves the
whole state — in particular the Size Table and the Unloaded Set —
untouched. -/
theorem rget_frame (s : RState) (p : String) (d : Value)
    (h : isSentinel (doGetD (.obj s.managed_data) (splitDots p) d) = false) :
    JsonDataReflector.get s p d =
      (doGetD (.obj s.managed_data) (splitDots p) d, s) := by
  unfold JsonDataReflector.get
  dsimp only
  rw [h]
  simp

/-- Any key the eviction loop itself unloaded holds the sentinel when
the loop finishes. -/
theorem unload_sentinel_inv (s0 : RState) (k : String)
    (hk : k ∈ (unload_if_needed s0).unloaded_keys) :
    k ∈ s0.unloaded_keys ∨
      (unload_if_needed s0).managed_data.get? k = some (.str sentinelStr) := by
  unfold unload_if_needed at hk ⊢
  exact unloadLoop_sentinel_inv _ s0 s0.unloaded_keys (fun k hk => Or.inl hk) k hk

/-- The batch `set` hands to the saver when its own eviction pass has
just evicted the freshly written root key: the sentinel, not the
caller's value. -/
theorem rset_sentinel_batch (s : RState) (p : String) (v : Value)
    (h1 : (splitDots p).headD emptyStr ∈ (JsonDataReflector.set s p v).1.unloaded_keys)
    (h2 : (splitDots p).headD emptyStr ∉ s.unloaded_keys) :
    (JsonDataReflector.set s p v).2 =
      [((splitDots p).headD emptyStr, Value.str sentinelStr)] := by
  unfold JsonDataReflector.set at h1 ⊢
  dsimp only at h1 ⊢
  rcases unload_sentinel_inv _ _ h1 with hinv | hinv
  · exact absurd hinv h2
  · rw [hinv]
    rfl

end JsonDataReflector

/-- Path Accessor round trip: a `set` through a nonempty segment list
followed by a `get` of the same segments returns the written value, for
every tree, every value and every default. -/
theorem doSet_doGetD (ks : List String) :
    ∀ (m : Fields) (v d : Value), ks ≠ [] →
      doGetD (.obj (doSet m ks v)) ks d = v := by
  induction ks with
  | nil => intro m v d h; exact absurd rfl h
  | cons k t ih =>
      intro m v d _
      cases t with
      | nil =>
          simp only [doSet, doGetD, Fields.get?_set_self]
      | cons k2 t2 =>
          simp only [doSet, doGetD, Fields.get?_set_self]
          exact ih _ v d (by simp)

/-- Python's `max` with a key function returns the first element
attaining the maximum: everything strictly before the returned element
in the scanned list has a strictly smaller key. -/
theorem pyMax_first (f : String → Nat) :
    ∀ (cs : List String) (c : String),
      ∃ l₁ l₂, c :: cs = l₁ ++ pyMax f c cs :: l₂ ∧
        ∀ x ∈ l₁, f x < f (pyMax f c cs) := by
  intro cs
  induction cs with
  | nil => exact fun c => ⟨[], [], rfl, by simp⟩
  | cons y t ih =>
      intro c
      by_cases h : f y > f c
      · simp only [pyMax, if_pos h]
        obtain ⟨l₁, l₂, heq, hlt⟩ := ih y
        refine ⟨c :: l₁, l₂, by rw [List.cons_append, ← heq], ?_⟩
        intro x hx
        rcases List.mem_cons.mp hx with rfl | hx
        · exact lt_of_lt_of_le h (pyMax_le f y t y (by simp))
        · exact hlt x hx
      · simp only [pyMax, if_neg h]
        obtain ⟨l₁, l₂, heq, hlt⟩ := ih c
        cases l₁ with
        | nil =>
            simp only [List.nil_append, List.cons.injEq] at heq
            refine ⟨[], y :: t, ?_, by simp⟩
            rw [List.nil_append, ← heq.1]
        | cons a l₁' =>
            simp only [List.cons_append, List.cons.injEq] at heq
            obtain ⟨hca, ht⟩ := heq
            refine ⟨c :: y :: l₁', l₂, ?_, ?_⟩
            · rw [List.cons_append, List.cons_append, ← ht]
            · intro x hx
              have hc : f c < f (pyMax f c t) := by
                have h0 := hlt a (by simp)
                rw [← hca] at h0
                exact h0
              rcases List.mem_cons.mp hx with rfl | hx
              · exact hc
              · rcases List.mem_cons.mp hx with rfl | hx
                · exact lt_of_le_of_lt (le_of_not_lt h) hc
                · exact hlt x (List.mem_cons.mpr (Or.inr hx))

namespace JsonDataReflectorMultiSource

/-- Multi-source `get` on a non-sentinel value returns it and leaves
the state untouched. -/
theorem msget_frame (s : MSState) (p : String) (d : Value)
    (h : isSentinel (doGetD s.accessor_data (splitDots p) d) = false) :
    JsonDataReflectorMultiSource.get s p d =
      (doGetD s.accessor_data (splitDots p) d, s) := by
  unfold JsonDataReflectorMultiSource.get
  dsimp only
  rw [h]
  simp

end JsonDataReflectorMultiSource

theorem dHasKey_iff {α : Type} (l : List (String × α)) (k : String) :
    dHasKey l k = true ↔ k ∈ dKeys l := by
  unfold dHasKey dKeys
  rw [List.any_eq_true]
  constructor
  · rintro ⟨e, he, hk⟩
    exact List.mem_map.mpr ⟨e, he, by simpa using hk⟩
  · intro h
    rcases List.mem_map.mp h with ⟨e, he, hk⟩
    exact ⟨e, he, by simp [hk]⟩

theorem dGet?_isSome_of_mem {α : Type} (l : List (String × α)) (k : String)
    (h : k ∈ dKeys l) : ∃ v, dGet? l k = some v := by
  induction l with
  | nil => simp [dKeys] at h
  | cons e t ih =>
      by_cases h2 : e.1 = k
      · exact ⟨e.2, by simp [dGet?, h2]⟩
      · simp only [dKeys, List.map_cons, List.mem_cons] at h
        rcases h with h | h
        · exact absurd h.symm h2
        · rcases ih (by simpa [dKeys] using h) with ⟨v, hv⟩
          exact ⟨v, by simp [dGet?, h2, hv]⟩

namespace JsonDataReflectorMultiSource

theorem dGet?_cons {α : Type} (x : String × α) (l : List (String × α))
    (k : String) :
    dGet? (x :: l) k = if x.1 = k then some x.2 else dGet? l k := rfl

theorem dGet?_register (l : List (String × DataSource)) (sid fresh : String)
    (w : Value) :
    dGet? (l.map (fun e => if e.1 = sid then
        (e.1, { e.2 with data := e.2.data.set fresh w }) else e)) sid =
      (dGet? l sid).map (fun src => { src with data := src.data.set fresh w }) := by
  induction l with
  | nil => simp [dGet?]
  | cons e t ih =>
      simp only [List.map_cons]
      by_cases h2 : e.1 = sid
      · rw [if_pos h2, dGet?_cons, dGet?_cons]
        dsimp only
        rw [if_pos h2, if_pos h2]
        rfl
      · rw [if_neg h2, dGet?_cons, dGet?_cons]
        rw [if_neg h2, if_neg h2]
        exact ih

/-- A stated identifier found in no source fails construction with the
identity-conflict error. -/
theorem ms_init_conflict (managed : Fields) (sources : List (String × DataSource))
    (sizeStr : String) (dsid : Option String) (fresh : String) (n : Nat) (i : String)
    (hp : parseSize sizeStr = .ok n)
    (hid : managed.get? idKey = some (.str i))
    (hnone : ∀ e ∈ sources, e.2.data.hasKey i = false) :
    init managed sources sizeStr dsid fresh = .error identityConflictErr := by
  unfold init
  rw [hp]
  dsimp only
  rw [hid]
  dsimp only
  have hfind : sources.find? (fun e => memAsKey (.str i) e.2.data) = none := by
    apply List.find?_eq_none.mpr
    intro e he
    simp [memAsKey, hnone e he]
  rw [hfind]

/-- Construction with no stated identifier on a nonempty registry never
fails: a fresh id is stamped and the managed object is registered under
it in the specified source (when named, nonempty and registered) or in
the first registered source. -/
theorem ms_init_fresh (managed : Fields) (e0 : String × DataSource)
    (rest : List (String × DataSource)) (sizeStr : String) (dsid : Option String)
    (fresh : String) (n : Nat)
    (hp : parseSize sizeStr = .ok n)
    (hid : managed.get? idKey = none) :
    ∃ r, init managed (e0 :: rest) sizeStr dsid fresh = .ok r ∧
      r.object_id = fresh ∧
      (∃ src, dGet? r.sources r.source_id = some src ∧
        src.data.get? fresh = some (.obj (managed.set idKey (.str fresh)))) ∧
      (∀ d, dsid = some d → d ≠ emptyStr → dHasKey (e0 :: rest) d = true →
        r.source_id = d) := by
  unfold init
  rw [hp]
  dsimp only
  rw [hid]
  dsimp only
  cases dsid with
  | none =>
      dsimp only
      refine ⟨_, rfl, rfl, ?_, ?_⟩
      · rw [dGet?_register]
        rw [show dGet? (e0 :: rest) e0.1 = some e0.2 from by simp [dGet?]]
        exact ⟨_, rfl, Fields.get?_set_self _ _ _⟩
      · intro d hd
        exact absurd hd (by simp)
  | some d =>
      dsimp only
      by_cases hcond : (decide (d ≠ emptyStr) && dHasKey (e0 :: rest) d) = true
      · rw [if_pos hcond]
        dsimp only
        rcases dGet?_isSome_of_mem (e0 :: rest) d
          ((dHasKey_iff _ _).mp (by rw [Bool.and_eq_true] at hcond; exact hcond.2))
          with ⟨src0, hsrc0⟩
        refine ⟨_, rfl, rfl, ?_, ?_⟩
        · rw [dGet?_register, hsrc0]
          exact ⟨_, rfl, Fields.get?_set_self _ _ _⟩
        · intro d2 hd2 _ _
          cases hd2
          rfl
      · rw [if_neg hcond]
        refine ⟨_, rfl, rfl, ?_, ?_⟩
        · rw [dGet?_register]
          rw [show dGet? (e0 :: rest) e0.1 = some e0.2 from by simp [dGet?]]
          exact ⟨_, rfl, Fields.get?_set_self _ _ _⟩
        · intro d2 hd2 hne hhas
          rw [Option.some.injEq] at hd2
          subst hd2
          exact absurd (by rw [Bool.and_eq_true]
                           exact ⟨decide_eq_true hne, hhas⟩) hcond

end JsonDataReflectorMultiSource


namespace JsonDataReflectorVirtual

/-- A stated identifier unknown to the store fails construction with the
identity-conflict error. -/
theorem v_init_conflict (managed : Fields) (store : StoreT) (sizeStr : String)
    (fresh : String) (n : Nat) (i : String)
    (hp : parseSize sizeStr = .ok n)
    (hid : managed.get? idKey = some (.str i))
    (hnot : Fields.hasKey store i = false) :
    init managed store sizeStr fresh = .error storeConflictErr := by
  unfold init
  rw [hp]
  dsimp only
  rw [hid]
  dsimp only
  simp [storeExists, hnot]

/-- Construction with no stated identifier never fails: the fresh id is
stamped into the managed tree and the object saved in the store. -/
theorem v_init_fresh (managed : Fields) (store : StoreT) (sizeStr : String)
    (fresh : String) (n : Nat)
    (hp : parseSize sizeStr = .ok n)
    (hid : managed.get? idKey = none) :
    init managed store sizeStr fresh = .ok
      { managed_data := managed.set idKey (.str fresh)
        store := storeSave store fresh (.obj (managed.set idKey (.str fresh)))
        max_memory_size := n
        managed_data_id := .str fresh } := by
  unfold init
  rw [hp]
  dsimp only
  rw [hid]

end JsonDataReflectorVirtual

/-! ### Concrete scenario inputs for the claims -/

set_option maxRecDepth 1000000

def budget1KB : String := "1KB"

def budget150B : String := "150B"

def budget2MB : String := "2MB"

def keyA : String := "a"

def keyB : String := "b"

def pathAB : String := "a.b"

def s1Name : String := "s1"

def obj1Id : String := "obj1"

def zzId : String := "zz"

def freshId0 : String := "fresh1"

/-- A run of `n` times the (one-byte) character `x`. -/
def xRun (n : Nat) : String := String.mk (List.replicate n 'x')

/-- The single-source reflector constructed with budget `"1KB"`. -/
def r1KB : JsonDataReflector.RState :=
  { managed_data := .nil
    unloaded_keys := []
    key_sizes := []
    max_memory_size := 1024
    large_key_threshold := 102 }

/-- The single-source reflector constructed with budget `"150B"`. -/
def r150B : JsonDataReflector.RState :=
  { managed_data := .nil
    unloaded_keys := []
    key_sizes := []
    max_memory_size := 150
    large_key_threshold := 15 }

/-- The C1 scenario: `set("a", <900 bytes>)` then `set("b", <900 bytes>)`
under budget `"1KB"`. -/
def c1state : JsonDataReflector.RState :=
  (JsonDataReflector.set
    (JsonDataReflector.set r1KB keyA (.str (xRun 900))).1
    keyB (.str (xRun 900))).1

/-- The C2 scenario: the C1 scenario followed by a third
`set("a", <900 bytes>)` re-writing the evicted key. -/
def c2state : JsonDataReflector.RState :=
  (JsonDataReflector.set
    (JsonDataReflector.set
      (JsonDataReflector.set r1KB keyA (.str (xRun 900))).1
      keyB (.str (xRun 900))).1
    keyA (.str (xRun 900))).1

/-- An empty source registered under `"s1"`. -/
def c3src : JsonDataReflectorMultiSource.DataSource :=
  { source_id := s1Name, keys := [], data := .nil }

/-- The C3 scenario: a freshly constructed multi-source reflector after
`set("a.b", 1)` (default budget `"2MB"`, no eviction possible). -/
def c3state? : Option JsonDataReflectorMultiSource.MSState :=
  match JsonDataReflectorMultiSource.init .nil [(s1Name, c3src)] budget2MB
      none obj1Id with
  | .ok s0 => JsonDataReflectorMultiSource.set s0 pathAB (.intV 1) none
  | .error _ => none

/-- The choice point of the C5 scenario: Size Table `{b: 92, a: 92}` (in
that insertion order), registry order `a` before `b`, both sizes equal
and maximal, nothing unloaded, over the 150-byte budget. -/
def c5mid : JsonDataReflector.RState :=
  { managed_data := .cons keyA (.str (xRun 90)) (.cons keyB (.str (xRun 90)) .nil)
    unloaded_keys := []
    key_sizes := [(keyB, 92), (keyA, 92)]
    max_memory_size := 150
    large_key_threshold := 15 }

/-- The C5 scenario: `set("a", <5 bytes>)`, `set("b", <90 bytes>)`,
`set("a", <90 bytes>)` under budget `"150B"`; the third `set` passes
through the choice point `c5mid` and must evict one of the two equally
sized large keys. -/
def c5state : JsonDataReflector.RState :=
  (JsonDataReflector.set
    (JsonDataReflector.set
      (JsonDataReflector.set r150B keyA (.str (xRun 5))).1
      keyB (.str (xRun 90))).1
    keyA (.str (xRun 90))).1

/-- A state where the eviction loop is over budget but has no candidate
in either phase: the only key is already unloaded while its stale Size
Table entry keeps the total above the budget. -/
def c6stuck : JsonDataReflector.RState :=
  { managed_data := .cons keyA (.str sentinelStr) .nil
    unloaded_keys := [keyA]
    key_sizes := [(keyA, 100)]
    max_memory_size := 10
    large_key_threshold := 1 }

/-- A one-source multi-source state used to instantiate the hypotheses
of the multi-source theorems. -/
def msW4 : JsonDataReflectorMultiSource.MSState :=
  { sources := [(s1Name, c3src)]
    unloaded_keys := []
    key_sizes := []
    max_memory_size := 1024
    large_key_threshold := 102
    accessor_data := .null
    object_id := obj1Id
    source_id := s1Name }

/-- A single-source state with one resident (non-sentinel) value. -/
def c7r : JsonDataReflector.RState :=
  { managed_data := .cons keyA (.intV 7) .nil
    unloaded_keys := []
    key_sizes := []
    max_memory_size := 1024
    large_key_threshold := 102 }

/-- A multi-source state whose accessor snapshot holds one resident
value. -/
def c7m : JsonDataReflectorMultiSource.MSState :=
  { sources := [(s1Name, c3src)]
    unloaded_keys := []
    key_sizes := []
    max_memory_size := 1024
    large_key_threshold := 102
    accessor_data := .obj (.cons keyA (.intV 7) .nil)
    object_id := obj1Id
    source_id := s1Name }

/-! ### The claims -/

/-- C1: with budget `"1KB"`, after `set("a", <900 bytes>)` and
`set("b", <900 bytes>)`, key `a` holds the Sentinel — but the subsequent
`get("a")` does NOT restore the original 900-byte value: the
`DataLoader` is backed by `managed_data` itself, so the "reload" reads
back the sentinel that eviction wrote there, and `get` returns the
string `"unloaded"`.  This evaluates the code at the claim's own
failing input. -/
theorem C1_reload_returns_sentinel_not_value :
    JsonDataReflector.mkReflector .nil budget1KB = .ok r1KB ∧
    c1state.managed_data.get? keyA = some (.str sentinelStr) ∧
    keyA ∈ c1state.unloaded_keys ∧
    (JsonDataReflector.get c1state keyA .null).1 = .str sentinelStr ∧
    (JsonDataReflector.get c1state keyA .null).2.managed_data.get? keyA =
      some (.str sentinelStr) ∧
    sentinelStr ≠ xRun 900 :=
  ⟨rfl, rfl, by decide, rfl, rfl, by decide⟩

/-- C2: the Unloaded Set and the Size Table are NOT always disjoint
after an operation: re-`set`-ing the previously evicted key `a` with a
large value leaves `a` simultaneously in `unloaded_keys` and in
`key_sizes`, because `set` never discards its key from the Unloaded Set
(while `get`'s reload path does).  This evaluates the code at the
failing input: budget `"1KB"`, `set("a", <900B>)`, `set("b", <900B>)`
(evicts `a`), then `set("a", <900B>)` again. -/
theorem C2_set_leaves_evicted_mark_on_rewrite :
    JsonDataReflector.mkReflector .nil budget1KB = .ok r1KB ∧
    keyA ∈ c2state.unloaded_keys ∧
    keyA ∈ dKeys c2state.key_sizes :=
  ⟨rfl, by decide, by decide⟩

/-- C3: the round trip `set(p, v); get(p) = v` FAILS in the multi-source
reflector for dotted sub-paths, with no eviction involved: its `set`
writes the caller's value at the top-level key and drops the dotted
remainder, so `get("a.b", 0)` returns the default `0` while `get("a")`
returns the whole value `1` — the top-level key was replaced, not
read-modified.  This evaluates the code at the failing input. -/
theorem C3_multisource_set_drops_subpath :
    (c3state?.map (fun s1 =>
      (JsonDataReflectorMultiSource.get s1 pathAB (.intV 0)).1)) = some (.intV 0) ∧
    (c3state?.map (fun s1 =>
      (JsonDataReflectorMultiSource.get s1 keyA (.intV 0)).1)) = some (.intV 1) ∧
    (c3state?.map (fun s1 => s1.unloaded_keys)) = some [] ∧
    Value.intV 0 ≠ Value.intV 1 := by
  refine ⟨rfl, rfl, rfl, ?_⟩
  intro h
  injection h with h2
  exact absurd h2 (by decide)

/-- C4: after every `set` the state satisfies the terminal condition of
the eviction engine — the code's own memory estimate is within the
budget, or no evictable key remains in either phase.  For the
multi-source variant this holds on registries whose `source_id` fields
agree with their registry names and whose Size Table keys are realized
in some source (both maintained by the public API). -/
theorem C4_budget_or_no_evictable_after_set :
    (∀ (s : JsonDataReflector.RState) (p : String) (v : Value),
      JsonDataReflector.evictionDone (JsonDataReflector.set s p v).1) ∧
    (∀ (t : JsonDataReflectorMultiSource.MSState) (p : String) (v : Value)
        (sid? : Option String) (t' : JsonDataReflectorMultiSource.MSState),
      JsonDataReflectorMultiSource.ownedInv t →
      (∀ e ∈ t.sources, e.2.source_id = e.1) →
      JsonDataReflectorMultiSource.set t p v sid? = some t' →
      JsonDataReflectorMultiSource.evictionDone t') :=
  ⟨JsonDataReflector.rset_done, JsonDataReflectorMultiSource.ms_set_done⟩

theorem C4_witness :
    JsonDataReflector.evictionDone
      (JsonDataReflector.set r1KB keyA (.str (xRun 900))).1 ∧
    (∃ t', JsonDataReflectorMultiSource.set msW4 keyA (.intV 5) none = some t' ∧
      JsonDataReflectorMultiSource.evictionDone t') := by
  constructor
  · exact C4_budget_or_no_evictable_after_set.1 r1KB keyA (.str (xRun 900))
  · obtain ⟨t', ht'⟩ := Option.isSome_iff_exists.mp
      (show (JsonDataReflectorMultiSource.set msW4 keyA (.intV 5) none).isSome = true
        from rfl)
    refine ⟨t', ht',
      C4_budget_or_no_evictable_after_set.2 msW4 keyA (.intV 5) none t' ?_ ?_ ht'⟩
    · intro k hk
      simp [msW4, dKeys] at hk
    · intro e he
      rcases List.mem_singleton.mp he with rfl
      rfl

/-- C5 counterexample: at the C5 choice point two large keys tie at 92
bytes, the registry (managed-dict) iteration order is `a` before `b`,
yet the engine evicts `b` — the first key of the Size Table's insertion
order — so the tie is broken by Size-Table order, not by registry order
as the claim states.  The conjuncts about `c5state` re-run the whole
scenario from the constructor through three `set`s and confirm `b`
(and only `b`) ends up evicted while `a` keeps its value. -/
theorem C5_tiebreak_is_size_table_order_cex :
    JsonDataReflector.mkReflector .nil budget150B = .ok r150B ∧
    c5state.unloaded_keys = [keyB] ∧
    c5state.managed_data.keys = [keyA, keyB] ∧
    c5state.managed_data.get? keyB = some (.str sentinelStr) ∧
    c5state.managed_data.get? keyA = some (.str (xRun 90)) ∧
    JsonDataReflector.pickCandidate c5mid = some keyB ∧
    dGet? c5mid.key_sizes keyA = dGet? c5mid.key_sizes keyB ∧
    c5mid.managed_data.keys = [keyA, keyB] ∧
    keyA ≠ keyB :=
  ⟨rfl, rfl, rfl, rfl, rfl, rfl, rfl, rfl, by decide⟩

/-- C5 (amended): when the large-key phase has candidates, the engine
deterministically evicts the first key attaining the maximal byte size
in the Size Table's iteration (= insertion) order — every earlier
candidate in that order is strictly smaller, and no candidate is
larger. -/
theorem C5_first_max_in_size_table_order (s : JsonDataReflector.RState)
    (c : String) (cs : List String)
    (hc : JsonDataReflector.candidatesOf s = c :: cs) :
    ∃ k l₁ l₂, JsonDataReflector.pickCandidate s = some k ∧
      JsonDataReflector.candidatesOf s = l₁ ++ k :: l₂ ∧
      (∀ x ∈ l₁, (dGet? s.key_sizes x).getD 0 < (dGet? s.key_sizes k).getD 0) ∧
      (∀ x ∈ JsonDataReflector.candidatesOf s,
        (dGet? s.key_sizes x).getD 0 ≤ (dGet? s.key_sizes k).getD 0) := by
  obtain ⟨l₁, l₂, heq, hlt⟩ :=
    pyMax_first (fun k => (dGet? s.key_sizes k).getD 0) cs c
  refine ⟨pyMax (fun k => (dGet? s.key_sizes k).getD 0) c cs, l₁, l₂, ?_, ?_, hlt, ?_⟩
  · unfold JsonDataReflector.pickCandidate
    rw [hc]
  · rw [hc]
    exact heq
  · intro x hx
    rw [hc] at hx
    exact pyMax_le (fun k => (dGet? s.key_sizes k).getD 0) c cs x hx

theorem C5_first_max_witness :
    ∃ k l₁ l₂, JsonDataReflector.pickCandidate c5mid = some k ∧
      JsonDataReflector.candidatesOf c5mid = l₁ ++ k :: l₂ ∧
      (∀ x ∈ l₁, (dGet? c5mid.key_sizes x).getD 0 < (dGet? c5mid.key_sizes k).getD 0) ∧
      (∀ x ∈ JsonDataReflector.candidatesOf c5mid,
        (dGet? c5mid.key_sizes x).getD 0 ≤ (dGet? c5mid.key_sizes k).getD 0) :=
  C5_first_max_in_size_table_order c5mid keyB [keyA] rfl

/-- C6: the eviction loop always terminates in the terminal condition —
within budget or no candidate in either phase — and when no candidate
exists it exits immediately, leaving the state untouched even while
over budget.  The multi-source loop needs its Size Table keys realized
in some source (an unrealized tracked key would make the source's
iteration a no-op that neither evicts nor exits). -/
theorem C6_eviction_loop_terminates :
    (∀ s : JsonDataReflector.RState,
      JsonDataReflector.evictionDone (JsonDataReflector.unload_if_needed s) ∧
      (JsonDataReflector.pickCandidate s = none →
        JsonDataReflector.unload_if_needed s = s)) ∧
    (∀ t : JsonDataReflectorMultiSource.MSState,
      JsonDataReflectorMultiSource.ownedInv t →
      JsonDataReflectorMultiSource.evictionDone
        (JsonDataReflectorMultiSource.unload_if_needed t) ∧
      (JsonDataReflectorMultiSource.pickCandidate t = none →
        JsonDataReflectorMultiSource.unload_if_needed t = t)) :=
  ⟨fun s => ⟨JsonDataReflector.unload_if_needed_done s,
      JsonDataReflector.unload_if_needed_noop s⟩,
   fun t ht => ⟨JsonDataReflectorMultiSource.ms_unload_if_needed_done t ht,
      JsonDataReflectorMultiSource.ms_unload_if_needed_noop t⟩⟩

theorem C6_witness :
    (JsonDataReflector.evictionDone (JsonDataReflector.unload_if_needed c6stuck) ∧
      (JsonDataReflector.pickCandidate c6stuck = none →
        JsonDataReflector.unload_if_needed c6stuck = c6stuck)) ∧
    (JsonDataReflectorMultiSource.evictionDone
        (JsonDataReflectorMultiSource.unload_if_needed msW4) ∧
      (JsonDataReflectorMultiSource.pickCandidate msW4 = none →
        JsonDataReflectorMultiSource.unload_if_needed msW4 = msW4)) := by
  refine ⟨C6_eviction_loop_terminates.1 c6stuck,
    C6_eviction_loop_terminates.2 msW4 ?_⟩
  intro k hk
  simp [msW4, dKeys] at hk

/-- C7: `get` on a resident key — one whose value read through the
accessor is not the Sentinel — returns that value and leaves the whole
state, in particular the Size Table and the Unloaded Set, unchanged; so
repeated `get`s on a resident key mutate no bookkeeping state, in both
the single-source and the multi-source reflector. -/
theorem C7_resident_get_mutates_nothing :
    (∀ (s : JsonDataReflector.RState) (p : String) (d : Value),
      isSentinel (doGetD (.obj s.managed_data) (splitDots p) d) = false →
      JsonDataReflector.get s p d =
        (doGetD (.obj s.managed_data) (splitDots p) d, s)) ∧
    (∀ (t : JsonDataReflectorMultiSource.MSState) (p : String) (d : Value),
      isSentinel (doGetD t.accessor_data (splitDots p) d) = false →
      JsonDataReflectorMultiSource.get t p d =
        (doGetD t.accessor_data (splitDots p) d, t)) :=
  ⟨JsonDataReflector.rget_frame, JsonDataReflectorMultiSource.msget_frame⟩

theorem C7_witness :
    JsonDataReflector.get c7r keyA .null = (.intV 7, c7r) ∧
    JsonDataReflectorMultiSource.get c7m keyA .null = (.intV 7, c7m) :=
  ⟨(C7_resident_get_mutates_nothing.1 c7r keyA .null rfl).trans rfl,
   (C7_resident_get_mutates_nothing.2 c7m keyA .null rfl).trans rfl⟩

/-- C8: in the object-identity variants, a stated id found in no source
(or unknown to the store) fails construction with the identity-conflict
error; with no stated id, construction on a nonempty registry (or any
store) never fails: the freshly generated id is stamped into the
managed data and the object registered under it in the specified source
when it is named, truthy and registered, else in the first registered
source (for the virtual variant, saved in the store). -/
theorem C8_identity_conflict_and_fresh_registration :
    (∀ (managed : Fields) (sources : List (String × JsonDataReflectorMultiSource.DataSource))
        (sizeStr : String) (dsid : Option String) (fresh : String) (n : Nat) (i : String),
      parseSize sizeStr = .ok n →
      managed.get? idKey = some (.str i) →
      (∀ e ∈ sources, e.2.data.hasKey i = false) →
      JsonDataReflectorMultiSource.init managed sources sizeStr dsid fresh =
        .error identityConflictErr) ∧
    (∀ (managed : Fields) (e0 : String × JsonDataReflectorMultiSource.DataSource)
        (rest : List (String × JsonDataReflectorMultiSource.DataSource))
        (sizeStr : String) (dsid : Option String) (fresh : String) (n : Nat),
      parseSize sizeStr = .ok n →
      managed.get? idKey = none →
      ∃ r, JsonDataReflectorMultiSource.init managed (e0 :: rest) sizeStr dsid fresh =
          .ok r ∧
        r.object_id = fresh ∧
        (∃ src, dGet? r.sources r.source_id = some src ∧
          src.data.get? fresh = some (.obj (managed.set idKey (.str fresh)))) ∧
        (∀ d, dsid = some d → d ≠ emptyStr → dHasKey (e0 :: rest) d = true →
          r.source_id = d)) ∧
    (∀ (managed : Fields) (store : JsonDataReflectorVirtual.StoreT)
        (sizeStr : String) (fresh : String) (n : Nat) (i : String),
      parseSize sizeStr = .ok n →
      managed.get? idKey = some (.str i) →
      Fields.hasKey store i = false →
      JsonDataReflectorVirtual.init managed store sizeStr fresh =
        .error storeConflictErr) ∧
    (∀ (managed : Fields) (store : JsonDataReflectorVirtual.StoreT)
        (sizeStr : String) (fresh : String) (n : Nat),
      parseSize sizeStr = .ok n →
      managed.get? idKey = none →
      JsonDataReflectorVirtual.init managed store sizeStr fresh = .ok
        { managed_data := managed.set idKey (.str fresh)
          store := JsonDataReflectorVirtual.storeSave store fresh
            (.obj (managed.set idKey (.str fresh)))
          max_memory_size := n
          managed_data_id := .str fresh }) :=
  ⟨JsonDataReflectorMultiSource.ms_init_conflict,
   JsonDataReflectorMultiSource.ms_init_fresh,
   JsonDataReflectorVirtual.v_init_conflict,
   JsonDataReflectorVirtual.v_init_fresh⟩

theorem C8_witness :
    JsonDataReflectorMultiSource.init (.cons idKey (.str zzId) .nil)
      [(s1Name, c3src)] budget2MB none freshId0 = .error identityConflictErr ∧
    (∃ r, JsonDataReflectorMultiSource.init .nil [(s1Name, c3src)] budget2MB
        none freshId0 = .ok r ∧
      r.object_id = freshId0 ∧
      (∃ src, dGet? r.sources r.source_id = some src ∧
        src.data.get? freshId0 =
          some (.obj (Fields.set .nil idKey (.str freshId0)))) ∧
      (∀ d, (none : Option String) = some d → d ≠ emptyStr →
        dHasKey [(s1Name, c3src)] d = true → r.source_id = d)) ∧
    JsonDataReflectorVirtual.init (.cons idKey (.str zzId) .nil) .nil budget2MB
      freshId0 = .error storeConflictErr ∧
    JsonDataReflectorVirtual.init .nil .nil budget2MB freshId0 = .ok
      { managed_data := Fields.set .nil idKey (.str freshId0)
        store := JsonDataReflectorVirtual.storeSave .nil freshId0
          (.obj (Fields.set .nil idKey (.str freshId0)))
        max_memory_size := 2097152
        managed_data_id := .str freshId0 } := by
  refine ⟨?_, ?_, ?_, ?_⟩
  · refine C8_identity_conflict_and_fresh_registration.1 _ _ _ _ _ 2097152 zzId
      rfl rfl ?_
    intro e he
    rcases List.mem_singleton.mp he with rfl
    rfl
  · exact C8_identity_conflict_and_fresh_registration.2.1 .nil (s1Name, c3src) []
      budget2MB none freshId0 2097152 rfl rfl
  · exact C8_identity_conflict_and_fresh_registration.2.2.1 _ _ _ _ 2097152 zzId
      rfl rfl rfl
  · exact C8_identity_conflict_and_fresh_registration.2.2.2 .nil .nil budget2MB
      freshId0 2097152 rfl rfl

/-- C9: the batch the single-source `set` hands to the saver is
`{key: managed_data[key]}` evaluated after the eviction pass; whenever
that pass has just evicted the freshly written root key (the key is in
the Unloaded Set after `set` but was not before), the persisted batch
holds the Sentinel string `"unloaded"`, not the caller's value. -/
theorem C9_sentinel_is_what_gets_saved (s : JsonDataReflector.RState)
    (p : String) (v : Value)
    (h1 : (splitDots p).headD emptyStr ∈
      (JsonDataReflector.set s p v).1.unloaded_keys)
    (h2 : (splitDots p).headD emptyStr ∉ s.unloaded_keys) :
    (JsonDataReflector.set s p v).2 =
      [((splitDots p).headD emptyStr, Value.str sentinelStr)] :=
  JsonDataReflector.rset_sentinel_batch s p v h1 h2

theorem C9_witness :
    (JsonDataReflector.set r150B keyA (.str (xRun 300))).2 =
      [(keyA, Value.str sentinelStr)] :=
  C9_sentinel_is_what_gets_saved r150B keyA (.str (xRun 300)) (by decide)
    (by decide)

/-- C10: the Path Accessor round trip: `DataAccessor.set` is total (it
creates or overwrites intermediate nodes as empty dicts and never
raises), and for every tree, every nonempty dot-separated segment list
and every value, an immediately following `DataAccessor.get` of the
same path returns that value, whatever the default. -/
theorem C10_accessor_roundtrip (m : Fields) (ks : List String) (v d : Value)
    (h : ks ≠ []) : doGetD (.obj (doSet m ks v)) ks d = v :=
  doSet_doGetD ks m v d h

theorem C10_witness :
    doGetD (.obj (doSet .nil [keyA, keyB] (.intV 3))) [keyA, keyB] (.intV 0) =
      .intV 3 :=
  C10_accessor_roundtrip .nil [keyA, keyB] (.intV 3) (.intV 0) (by decide)
